import Mathlib

/-!
# Verification of the xcipmaster packet layout compiler, codec and connection manager

A shallow embedding, in Lean 4, of the core logic of the `xcipmaster`
repository:

* `xcipmaster/fields.py` — the field mutation/formatting strategies
  (`_reverse_bytes`, `_float_to_big_endian`, `_parse_int`, `_ensure_range`,
  the per-type setters, `FieldMutator.set_value`, `FieldFormatter.format_value`);
* `xcipmaster/config.py` — the packet layout compiler
  (`CIPConfigService.create_packet_dict`, `sorted_fields`,
  `create_packet_class`);
* `xcipmaster/comm.py` — the communication manager
  (`calculate_connection_params`, the sequence/heartbeat counters of
  `manage_io_communication`, `_set_heartbeat`, and the reconnect loop of
  `start`).

Machine integers are modelled as `Nat`/`Int` (Python integers are unbounded,
so no wrap-around is introduced beyond what the source computes explicitly);
Python floats that travel through `struct.pack("f", ...)` are modelled by
their 32-bit IEEE-754 single-precision bit pattern.  Python exceptions are
modelled as explicit error values; mutefulness of the Python setters is kept
visible by threading the packet state through every setter, so that a
"validate then mutate" discipline is a provable property rather than a
modelling artefact.
-/

namespace XCipMaster

/-! ## Byte-order helpers (`fields.py`: `_reverse_bytes`, `_float_to_big_endian`)

`int.to_bytes(length, byteorder="big")` produces the big-endian digit list of
a nonnegative integer; `int.from_bytes(b, byteorder="big")` reads one back.
We model the digit lists little-endian first (`toBytesLE`) and obtain the
big-endian forms by `List.reverse`, exactly mirroring the slicing `[::-1]`
done by the source. -/

/-- Little-endian base-256 digits of `v`, padded/truncated to `n` digits.
(`int.to_bytes` raises `OverflowError` when `v ≥ 256 ^ n`; all call sites in
the source establish `v < 256 ^ n` first via `_ensure_range`.) -/
def toBytesLE : Nat → Nat → List Nat
  | _, 0 => []
  | v, n + 1 => v % 256 :: toBytesLE (v / 256) n

/-- Read a little-endian base-256 digit list back into a number. -/
def fromBytesLE : List Nat → Nat
  | [] => 0
  | b :: bs => b + 256 * fromBytesLE bs

/-- `fields.py` `_reverse_bytes`: write `value` as `len` big-endian bytes,
reverse the byte string, and read it back big-endian. -/
def reverse_bytes (value len : Nat) : Nat :=
  fromBytesLE ((toBytesLE value len).reverse)

/-! ## A stable sort modelling Python `list.sort(key=...)` / `sorted(key=...)`

Python's sort is stable.  We use a structurally recursive stable insertion
sort so that concrete layouts can be evaluated inside the kernel. -/

/-- Insert `a` after every element `b` of an accumulated list with
`le b a`; with `le` comparing sort keys this is the stable insertion used to
model Python's stable sort. -/
def insertByKey (le : α → α → Bool) (a : α) : List α → List α
  | [] => [a]
  | b :: bs => if le b a then b :: insertByKey le a bs else a :: b :: bs

/-- Stable sort of `l` by the boolean key comparison `le`. -/
def stableSort (le : α → α → Bool) (l : List α) : List α :=
  l.foldl (fun acc a => insertByKey le a acc) []

/-! ## Packet codec (`fields.py`)

A dynamically generated scapy packet class is a list of named field
descriptors (`fields_desc`); scapy's `Packet_metaclass.__getattr__` resolves
`getattr(packet.__class__, name)` to the descriptor of that name, and
instance `getattr`/`setattr` read and write the per-field value (the field's
declared default when never written).

Raw inputs to `set_value` are Python values.  A numeric input is abstracted
by its integer truncation `ival` (`int(value)`) together with the IEEE-754
single-precision bit pattern `fpat` of `float(value)` (the pattern is what
`struct.pack("f", ...)` produces); a `str` input carries its encoded bytes
plus its optional parses as integer (`_parse_int`) and as float; a `bytes`
input carries its bytes. -/

/-- A raw value handed to `FieldMutator.set_value`. -/
inductive RawValue where
  /-- a Python `int`: its value, and the single-precision pattern of
  `float(value)` -/
  | num (ival : Int) (fpat : Nat)
  /-- a Python `str`: encoded bytes, `_parse_int` result (`none` when the
  text is not decimal/hexadecimal), `float(...)` pattern (`none` when the
  text does not parse as a float) -/
  | txt (bytes : List Nat) (ival : Option Int) (fpat : Option Nat)
  /-- a Python `bytes` object -/
  | bin (bytes : List Nat)
deriving DecidableEq, Repr

/-- The scapy field descriptor kinds emitted by
`CIPConfigService.create_packet_class` (`config.py`, the `field_desc`
branches). -/
inductive ScapyFieldKind where
  | byteField
  | bitField
  | floatField
  | strFixedField (len : Nat)
  | leIntField
  | shortField
  | signedByteField
deriving DecidableEq, Repr

/-- The value stored in a packet instance for one field. -/
inductive StoredVal where
  | int (n : Int)
  /-- a Python float holding a single-precision value, by bit pattern -/
  | flt (pat : Nat)
  | str (bs : List Nat)
deriving DecidableEq, Repr

/-- scapy default value of each generated field (`create_packet_class`
builds every numeric field with default `0`, strings with default `b""`). -/
def defaultVal : ScapyFieldKind → StoredVal
  | .byteField => .int 0
  | .bitField => .int 0
  | .floatField => .flt 0
  | .strFixedField _ => .str []
  | .leIntField => .int 0
  | .shortField => .int 0
  | .signedByteField => .int 0

/-- `fields_desc` of a generated packet class: field names with their
descriptor kinds. -/
abbrev PacketClass := List (String × ScapyFieldKind)

/-- Instance state of a packet: explicit per-field assignments (a name
resolves to its most recent assignment, else to the class default). -/
abbrev PacketState := List (String × StoredVal)

/-- `getattr(packet.__class__, name, None)`: the field descriptor. -/
def getClassField (cls : PacketClass) (name : String) : Option ScapyFieldKind :=
  (List.find? (fun p => p.1 == name) cls).map (fun p => p.2)

/-- `setattr(packet, name, v)`. -/
def setFieldVal (st : PacketState) (name : String) (v : StoredVal) : PacketState :=
  (name, v) :: st

/-- `getattr(packet, name)`: the last value written, else the class
default; `none` when the class has no such field. -/
def getFieldVal (cls : PacketClass) (st : PacketState) (name : String) : Option StoredVal :=
  match (List.find? (fun p => p.1 == name) st).map (fun p => p.2) with
  | some v => some v
  | none => (getClassField cls name).map defaultVal

/-- The `FieldMutationError` situations raised by the setters of
`fields.py`. -/
inductive FieldMutationErr where
  /-- `_resolve_strategy`: `Field {name} not found.` -/
  | notFound
  /-- `_resolve_strategy`: `Field {name} is not supported for this
  operation.` (no strategy, or a strategy without a setter) -/
  | unsupportedOperation
  /-- `_parse_int`: `Value must be numeric or a hexadecimal string.` -/
  | notNumeric
  /-- `_ensure_range`: integer out of the permitted range -/
  | outOfRange
  /-- `_set_bit`: value is not the literal `0`/`1` -/
  | invalidBool
  /-- `_string_to_bytes`: string longer than the declared field length -/
  | lengthExceeded
  /-- `_set_float`: value does not parse as a float -/
  | notAFloat
  /-- `_string_to_bytes`: value is neither `str` nor `bytes` -/
  | notStringOrBytes
deriving DecidableEq, Repr

/-- `fields.py` `_parse_int`: `int`/`float` inputs are truncated to `int`;
`str` inputs parse as hexadecimal (`0x` prefixed) or decimal; anything else
raises. -/
def parse_int : RawValue → Option Int
  | .num i _ => some i
  | .txt _ pi _ => pi
  | .bin _ => none

/-- `float(raw_value)` as a single-precision bit pattern: numbers always
convert, strings convert when they parse as a float, `bytes` raise
`TypeError`. -/
def float_pattern : RawValue → Option Nat
  | .num _ p => some p
  | .txt _ _ p => p
  | .bin _ => none

/-- `fields.py` `_float_to_big_endian` at the bit-pattern level:
`struct.pack("f", v)[::-1]` reverses the 4 bytes of the single-precision
pattern. -/
def float_to_big_endian (pat : Nat) : Nat := reverse_bytes pat 4

/-- `_set_byte`: parse an integer, `_ensure_range(0, 0xFF)`, store it. -/
def set_byte (st : PacketState) (name : String) (raw : RawValue) :
    PacketState × Option FieldMutationErr :=
  match parse_int raw with
  | none => (st, some .notNumeric)
  | some v =>
    if 0 ≤ v ∧ v ≤ 0xFF then (setFieldVal st name (.int v), none)
    else (st, some .outOfRange)

/-- `_set_short`: parse an integer, `_ensure_range(0, 0xFFFF)`, byte-swap
the two-byte value with `_reverse_bytes`, store the swapped value. -/
def set_short (st : PacketState) (name : String) (raw : RawValue) :
    PacketState × Option FieldMutationErr :=
  match parse_int raw with
  | none => (st, some .notNumeric)
  | some v =>
    if 0 ≤ v ∧ v ≤ 0xFFFF then
      (setFieldVal st name (.int (reverse_bytes v.toNat 2)), none)
    else (st, some .outOfRange)

/-- `_set_bit`: accept the int `0`/`1` or the one-character strings
`"0"`/`"1"` (bytes `0x30`/`0x31`); reject everything else. -/
def set_bit (st : PacketState) (name : String) (raw : RawValue) :
    PacketState × Option FieldMutationErr :=
  match raw with
  | .num i _ =>
    if i = 0 ∨ i = 1 then (setFieldVal st name (.int i), none)
    else (st, some .invalidBool)
  | .txt bs _ _ =>
    if bs = [0x30] then (setFieldVal st name (.int 0), none)
    else if bs = [0x31] then (setFieldVal st name (.int 1), none)
    else (st, some .invalidBool)
  | .bin _ => (st, some .invalidBool)

/-- `_set_float`: `float(raw_value)` (else raise), then store the
byte-reversed pattern produced by `_float_to_big_endian`. -/
def set_float (st : PacketState) (name : String) (raw : RawValue) :
    PacketState × Option FieldMutationErr :=
  match float_pattern raw with
  | none => (st, some .notAFloat)
  | some p => (setFieldVal st name (.flt (float_to_big_endian p)), none)

/-- `_string_to_bytes`: accept `str` (encoded) or `bytes`, reject other
types, and reject payloads longer than the field's declared length. -/
def string_to_bytes (len : Nat) (raw : RawValue) :
    Except FieldMutationErr (List Nat) :=
  match raw with
  | .txt bs _ _ => if bs.length ≤ len then .ok bs else .error .lengthExceeded
  | .bin bs => if bs.length ≤ len then .ok bs else .error .lengthExceeded
  | .num _ _ => .error .notStringOrBytes

/-- `_set_fixed_string`: validate through `_string_to_bytes`, then store. -/
def set_fixed_string (len : Nat) (st : PacketState) (name : String)
    (raw : RawValue) : PacketState × Option FieldMutationErr :=
  match string_to_bytes len raw with
  | .error e => (st, some e)
  | .ok bs => (setFieldVal st name (.str bs), none)

/-- The setters reachable through `FieldMutator.set_value`. -/
inductive SetterKind where
  | float | bit | byte | short
deriving DecidableEq, Repr

/-- The setter selected for a field descriptor by `_resolve_strategy`
(iterating `DEFAULT_FIELD_STRATEGIES` in insertion order with
`isinstance`):

* `IEEEFloatField` → `_set_float`; `BitField` → `_set_bit`;
  `ByteField` → `_set_byte`; `ShortField` → `_set_short`;
* `StrFixedLenField` is a scapy subclass of `StrField`, whose
  (earlier) strategy entry carries no setter, so `set_value` on a fixed
  string field fails with `unsupportedOperation`;
* `LEIntField` either matches no entry or matches the `IntField` entry,
  which carries no setter; `SignedByteField` (a direct `Field` subclass)
  matches no entry — in both cases `set_value` fails. -/
def strategy_setter : ScapyFieldKind → Option SetterKind
  | .floatField => some .float
  | .bitField => some .bit
  | .byteField => some .byte
  | .shortField => some .short
  | .strFixedField _ => none
  | .leIntField => none
  | .signedByteField => none

/-- `FieldMutator.set_value`: resolve the field descriptor (else
`notFound`), resolve a strategy with a setter (else
`unsupportedOperation`), and run the setter.  The returned state is the
packet state after the call, also on the error paths. -/
def set_value (cls : PacketClass) (st : PacketState) (name : String)
    (raw : RawValue) : PacketState × Option FieldMutationErr :=
  match getClassField cls name with
  | none => (st, some .notFound)
  | some kind =>
    match strategy_setter kind with
    | none => (st, some .unsupportedOperation)
    | some .float => set_float st name raw
    | some .bit => set_bit st name raw
    | some .byte => set_byte st name raw
    | some .short => set_short st name raw

/-- A value produced by `FieldFormatter.format_value`. -/
inductive Formatted where
  | int (n : Int)
  | flt (pat : Nat)
  | str (bs : List Nat)
deriving DecidableEq, Repr

/-- `FieldFormatter.format_value`: resolve the descriptor and apply the
strategy's formatter — `_format_float` (pattern byte-reversal) for float
fields, `_format_numeric` (`_reverse_bytes` at width 1 or 2) for
bit/byte/short fields, `_format_string` (pass-through) for fixed strings
(whose first `isinstance` match is the `StrField` entry, with the same
pass-through formatter).  `none` models `FieldFormattingError`; for
`LEIntField`/`SignedByteField` no theorem below depends on the formatter
and the model reports no formatter. -/
def format_value (cls : PacketClass) (st : PacketState) (name : String) :
    Option Formatted :=
  match getClassField cls name with
  | none => none
  | some kind =>
    match kind, getFieldVal cls st name with
    | .floatField, some (.flt p) => some (.flt (float_to_big_endian p))
    | .bitField, some (.int n) => some (.int (reverse_bytes n.toNat 1))
    | .byteField, some (.int n) => some (.int (reverse_bytes n.toNat 1))
    | .shortField, some (.int n) => some (.int (reverse_bytes n.toNat 2))
    | .strFixedField _, some (.str bs) => some (.str bs)
    | _, _ => none

/-- "The formatted value equals the set input (up to the type's native
precision)": integer inputs compare by their parsed integer value, float
inputs by their single-precision bit pattern, string/bytes inputs by their
byte content. -/
def matchesInput : RawValue → Formatted → Prop
  | .num i _, .int m => m = i
  | .num _ p, .flt q => q = p
  | .txt _ (some i) _, .int m => m = i
  | .txt _ _ (some p), .flt q => q = p
  | .txt bs _ _, .str cs => cs = bs
  | .bin bs, .str cs => cs = bs
  | _, _ => False

/-- Well-formedness of an abstracted raw input: carried single-precision
patterns are 32-bit (as `struct.pack("f", ...)` guarantees), and the
literal strings `"0"` / `"1"` carry the integer parses `0` / `1` (as
`int(...)` guarantees). -/
def RawWF : RawValue → Prop
  | .num _ p => p < 2 ^ 32
  | .txt bs i p => p.getD 0 < 2 ^ 32 ∧
      (bs = [0x30] → i = some 0) ∧ (bs = [0x31] → i = some 1)
  | .bin _ => True

instance : DecidablePred RawWF := fun r => by
  cases r <;> unfold RawWF <;> infer_instance

/-! ## Packet layout compiler (`config.py`: `CIPConfigService`)

`create_packet_dict` receives the declared schema entries (dicts with
`id` / `offset` (bits) / `type` (the XML tag) / `length`) and the assembly
size in bits, and produces per-byte buckets of entries: the declared BOOLs
(pre-placed into their byte buckets), the declared non-BOOL fields, and the
synthesized `spare_bit_<byte>_<bit>` / `spare_byte_<byte>` fields.
`sorted_fields` flattens the buckets and sorts the entries by bit offset.

The bucket structure itself only determines the order of entries with equal
offsets (which a valid schema never produces), so the embedding collects the
bucket contents as one list: the pre-placed BOOL entries followed by the
entries the byte scan emits, in emission order. -/

/-- One schema entry / one compiled layout entry (`id`, `offset` in bits,
`type` tag, `length` in elements). -/
structure SchemaField where
  id : String
  offset : Nat
  typ : String
  length : Nat
deriving DecidableEq, Repr

/-- `create_packet_dict`'s `cip_data_type_size` dictionary; the source reads
it with `.get(field_type, 1)`, so unknown tags default to one byte. -/
def cip_data_type_size (t : String) : Nat :=
  if t = "usint" then 1
  else if t = "uint" then 2
  else if t = "udint" then 4
  else if t = "real" then 4
  else if t = "string" then 1
  else if t = "sint" then 1
  else if t = "int" then 2
  else if t = "dint" then 4
  else if t = "lreal" then 8
  else if t = "lint" then 8
  else 1

/-- `sorted_dict[item["id"]] = {...}`: Python dict assignment keeps the
first position of an existing key and replaces its value, else appends. -/
def dict_upsert (acc : List SchemaField) (f : SchemaField) : List SchemaField :=
  if acc.any (fun g => g.id == f.id) then
    acc.map (fun g => if g.id == f.id then f else g)
  else acc ++ [f]

/-- The `sorted_dict` of `create_packet_dict`: entries sorted by `offset`
(Python's stable sort), then deduplicated by `id` with dict semantics. -/
def sorted_dict (fields : List SchemaField) : List SchemaField :=
  (stableSort (fun a b => decide (a.offset ≤ b.offset)) fields).foldl dict_upsert []

/-- The bucket entry appended for a declared BOOL in the pre-placement loop
(`type` fixed to `"bool"`, `length` fixed to `1`). -/
def mk_bool_entry (f : SchemaField) : SchemaField :=
  { id := f.id, offset := f.offset, typ := "bool", length := 1 }

/-- All BOOL bucket entries, in `sorted_dict` order. -/
def pre_bools (sd : List SchemaField) : List SchemaField :=
  (sd.filter (fun f => f.typ == "bool")).map mk_bool_entry

/-- The BOOL entries pre-placed into byte `b` (`signals[offset // 8]`). -/
def bools_in_byte (sd : List SchemaField) (b : Nat) : List SchemaField :=
  (pre_bools sd).filter (fun e => e.offset / 8 == b)

/-- The scan's search for a non-BOOL field starting exactly at byte `b`
(first match in `sorted_dict` order). -/
def find_non_bool (sd : List SchemaField) (b : Nat) : Option SchemaField :=
  sd.find? (fun f => f.offset == 8 * b && f.typ != "bool")

/-- A synthesized `spare_byte_<byte>` entry (stored with type `"string"`). -/
def spare_byte_entry (tpi tpl : Nat) : SchemaField :=
  { id := "spare_byte_" ++ toString tpi, offset := 8 * tpi,
    typ := "string", length := tpl }

/-- A synthesized `spare_bit_<byte>_<bit>` entry. -/
def spare_bit_entry (b i : Nat) : SchemaField :=
  { id := "spare_bit_" ++ toString b ++ "_" ++ toString i,
    offset := 8 * b + i, typ := "bool", length := 1 }

/-- Flush the pending spare-byte run (`if temp_pad_len > 0: ...`). -/
def flush_pad (tpi tpl : Nat) : List SchemaField :=
  if 0 < tpl then [spare_byte_entry tpi tpl] else []

/-- The `spare_bit` entries synthesized for byte `b`: one for every bit
position `0..7` not occupied by a pre-placed BOOL of that byte, in
ascending bit order. -/
def spare_bits_for (b : Nat) (pack : List SchemaField) : List SchemaField :=
  (List.range 8).filterMap (fun i =>
    if (pack.map (fun e => e.offset % 8)).contains i then none
    else some (spare_bit_entry b i))

/-- The bucket entry appended when a non-BOOL field is found at byte `b`. -/
def mk_field_entry (b : Nat) (f : SchemaField) : SchemaField :=
  { id := f.id, offset := 8 * b, typ := f.typ, length := f.length }

/-- The byte scan of `create_packet_dict` (the `for byte_index in
range(max_packet_size_bits // 8)` loop followed by the trailing pad flush),
as the list of entries it emits.  State: the current byte `b`, the number
`n` of bytes still to scan, `len_counter` (a Python int: emitting a
zero-length field makes it negative), `temp_pad_index` and `temp_pad_len`. -/
def scan_emit (sd : List SchemaField) : Nat → Nat → Int → Nat → Nat → List SchemaField
  | _, 0, _, tpi, tpl => flush_pad tpi tpl
  | b, n + 1, lenc, tpi, tpl =>
    if lenc ≠ 0 then scan_emit sd (b + 1) n (lenc - 1) tpi tpl
    else if (bools_in_byte sd b).isEmpty then
      match find_non_bool sd b with
      | some f =>
        flush_pad tpi tpl ++ [mk_field_entry b f] ++
          scan_emit sd (b + 1) n
            ((f.length * cip_data_type_size f.typ : Int) - 1)
            (if 0 < tpl then 0 else tpi) 0
      | none =>
        scan_emit sd (b + 1) n 0 (if tpl = 0 then b else tpi) (tpl + 1)
    else
      flush_pad tpi tpl ++ spare_bits_for b (bools_in_byte sd b) ++
        scan_emit sd (b + 1) n 0 (if 0 < tpl then 0 else tpi) 0

/-- `create_packet_dict`: the multiset of bucket entries (pre-placed BOOLs
followed by the scan's emissions). -/
def create_packet_dict (fields : List SchemaField) (assembly_size : Nat) :
    List SchemaField :=
  let sd := sorted_dict fields
  pre_bools sd ++ scan_emit sd 0 (assembly_size / 8) 0 0 0

/-- `CIPConfigService.sorted_fields`: flatten the buckets and sort by
offset (Python `sorted`, stable). -/
def sorted_fields (l : List SchemaField) : List SchemaField :=
  stableSort (fun a b => decide (a.offset ≤ b.offset)) l

/-- The compiled layout of one assembly: `sorted_field` inside
`create_packet_class`. -/
def compile_layout (fields : List SchemaField) (assembly_size : Nat) :
    List SchemaField :=
  sorted_fields (create_packet_dict fields assembly_size)

/-- The configuration errors named by the specification.  `config.py`
contains no `raise` reaching the layout computation: `create_packet_dict`
and `create_packet_class` are total on well-formed schema entries, so the
compiler, viewed as a fallible computation, always returns `.ok`. -/
inductive ConfigErr where
  | misalignedSize
  | fieldOverrun
deriving DecidableEq, Repr

/-- `create_packet_class`, viewed as a fallible layout computation. -/
def create_packet_class (fields : List SchemaField) (assembly_size : Nat) :
    Except ConfigErr (List SchemaField) :=
  .ok (compile_layout fields assembly_size)

/-- The `field_desc` branches of `create_packet_class`: which scapy field
descriptor a layout entry generates.  `int`, `dint`, `lreal` and `lint`
tags match no branch and generate no field. -/
def field_desc_entry (e : SchemaField) : Option (String × ScapyFieldKind) :=
  if e.typ = "usint" then some (e.id, .byteField)
  else if e.typ = "bool" then some (e.id, .bitField)
  else if e.typ = "real" then some (e.id, .floatField)
  else if e.typ = "string" then some (e.id, .strFixedField e.length)
  else if e.typ = "udint" then some (e.id, .leIntField)
  else if e.typ = "uint" then some (e.id, .shortField)
  else if e.typ = "sint" then some (e.id, .signedByteField)
  else none

/-- The generated packet class of a compiled layout. -/
def packet_class_of (layout : List SchemaField) : PacketClass :=
  layout.filterMap field_desc_entry

/-! ### Bit extents of layout entries -/

/-- The bit length of a layout entry: BOOL entries occupy one bit; every
other entry occupies `length × cip_data_type_size` bytes. -/
def entry_bits_len (e : SchemaField) : Nat :=
  if e.typ = "bool" then 1 else 8 * (e.length * cip_data_type_size e.typ)

/-- The bit positions occupied by an entry. -/
def bits_of (e : SchemaField) : List Nat :=
  List.range' e.offset (entry_bits_len e)

/-- All bit positions of a layout, with multiplicity. -/
def all_bits (l : List SchemaField) : List Nat :=
  l.flatMap bits_of

/-- Two entries occupy disjoint bit positions. -/
def fields_disjoint (a b : SchemaField) : Prop :=
  ∀ x ∈ bits_of a, x ∉ bits_of b

instance (a b : SchemaField) : Decidable (fields_disjoint a b) := by
  unfold fields_disjoint; infer_instance

/-- The validity conditions named by the specification's layout invariant:
the total size is whole bytes, declared ids are unique, declared fields are
pairwise non-overlapping and within bounds, and non-BOOL fields start on a
byte boundary. -/
def schema_valid_base (fields : List SchemaField) (size : Nat) : Prop :=
  size % 8 = 0 ∧
  (fields.map (fun f => f.id)).Nodup ∧
  fields.Pairwise fields_disjoint ∧
  (∀ f ∈ fields, f.offset + entry_bits_len f ≤ size) ∧
  (∀ f ∈ fields, f.typ ≠ "bool" → f.offset % 8 = 0)

/-- Validity strengthened by requiring every declared field to have a
positive element count. -/
def schema_valid (fields : List SchemaField) (size : Nat) : Prop :=
  schema_valid_base fields size ∧ ∀ f ∈ fields, 1 ≤ f.length

instance (fields : List SchemaField) (size : Nat) :
    Decidable (schema_valid_base fields size) := by
  unfold schema_valid_base; infer_instance

instance (fields : List SchemaField) (size : Nat) :
    Decidable (schema_valid fields size) := by
  unfold schema_valid; infer_instance

/-- What a declared field looks like inside the compiled layout: BOOLs are
re-emitted with `length = 1`; other fields are re-emitted with their byte
offset re-derived (`byte_index * 8`). -/
def compiled_entry (f : SchemaField) : SchemaField :=
  if f.typ = "bool" then mk_bool_entry f else mk_field_entry (f.offset / 8) f

/-- An entry synthesized by the spare-bit branch. -/
def is_spare_bit (e : SchemaField) : Prop :=
  ∃ b i, i < 8 ∧ e = spare_bit_entry b i

/-- An entry synthesized by a pad flush. -/
def is_spare_byte (e : SchemaField) : Prop :=
  ∃ tpi tpl, 1 ≤ tpl ∧ e = spare_byte_entry tpi tpl

/-- The pre-placed BOOL bucket entries of bytes not yet reached by the
byte scan. -/
def future_bools (sd : List SchemaField) (b : Nat) : List SchemaField :=
  (pre_bools sd).filter (fun e => decide (b ≤ e.offset / 8))

/-- Byte `j` is untouched by every declared field of `sd`: no BOOL lives in
it and no non-BOOL field's byte extent contains it. -/
def byte_free (sd : List SchemaField) (j : Nat) : Prop :=
  (∀ f ∈ sd, f.typ = "bool" → f.offset / 8 ≠ j) ∧
  (∀ f ∈ sd, f.typ ≠ "bool" →
    ¬(f.offset / 8 ≤ j ∧ j < f.offset / 8 + f.length * cip_data_type_size f.typ))

/-! ## Communication manager (`comm.py`: `CommunicationManager`) -/

/-- `calculate_connection_params`: assembly sizes (in bits, when known)
to the pair of CIP connection parameters. -/
def calculate_connection_params (ot_size to_size : Option Nat) :
    Option Nat × Option Nat :=
  (ot_size.map (fun s => 0x4800 ||| (s / 8 + 6)),
   to_size.map (fun s => 0x2800 ||| (s / 8 + 6)))

/-- The state of `manage_io_communication`'s cyclic loop: the O→T sequence
counter `CIP_AppCounter`, the heartbeat counter `MPU_CTCMSAlive`, the
shared OT packet instance and the `bCIPErrorOccured` flag. -/
structure IOState where
  seq : Nat
  hb : Nat
  otPacket : PacketState
  err : Bool
deriving Repr

/-- The state at entry of `manage_io_communication`:
`MPU_CTCMSAlive = 0`, `CIP_AppCounter = 65500`, no error. -/
def init_io_state (pkt : PacketState) : IOState :=
  { seq := 65500, hb := 0, otPacket := pkt, err := false }

/-- `_set_heartbeat`: write `v` into field `name` of the OT packet when the
packet class declares it as a `ByteField`; otherwise a no-op. -/
def set_heartbeat (cls : PacketClass) (st : PacketState) (name : String)
    (v : Int) : PacketState :=
  match getClassField cls name with
  | some .byteField => setFieldVal st name (.int v)
  | _ => st

/-- One iteration of `manage_io_communication`'s `while` body for the OT
packet class `cls`: `recv` is the result of `recv_UDP_ENIP_CIP_IO` (`none`
on timeout).  Returns the next state and the sequence number sent with the
O→T datagram, when one was sent.  On a received datagram the TO packet is
rebuilt from the payload (the rebuilt object is never `None`, so the
parse-failure branch of the source is unreachable), the heartbeat counter
is incremented with wrap (`if MPU_CTCMSAlive >= 255: 0 else +1`), written
through `_set_heartbeat`, the datagram is sent with the current
`CIP_AppCounter`, and the counter advances with wrap
(`if CIP_AppCounter < 65535: +1 else 0`).  (The wall-clock timestamp write
to `MPU_CDateTimeSec` is outside the embedding.) -/
def manage_io_cycle (cls : PacketClass) (st : IOState)
    (recv : Option (List Nat)) : IOState × Option Nat :=
  match recv with
  | none => ({ st with err := true }, none)
  | some payload =>
    let to_packet : Option (List Nat) := some payload
    match to_packet with
    | none => ({ st with err := true }, none)
    | some _ =>
      let hb1 := if st.hb ≥ 255 then 0 else st.hb + 1
      let ot1 := set_heartbeat cls st.otPacket "MPU_CTCMSAlive" (hb1 : Int)
      let sent := st.seq
      let seq1 := if st.seq < 65535 then st.seq + 1 else 0
      ({ st with seq := seq1, hb := hb1, otPacket := ot1 }, some sent)

/-! ### The reconnect loop of `CommunicationManager.start`

`start_comm_thread` loops `while enable_auto_reconnect or not stop_set`,
calling `run_once` each iteration.  A raised connection error (failed
session or rejected Forward Open) is retried after a fixed 2-second sleep
iff auto-reconnect is enabled and stop has not been requested; a normal
return re-enters the loop after the same 2-second sleep unless stop was
requested or auto-reconnect is disabled.  The auto-reconnect flag is
modelled as constant over the scenario (the claims fix the policy); the
stop flag, which other threads may set at any moment, is modelled by one
observation per check site. -/

/-- The outcome of one `run_once` call: normal return or a raised
connection error. -/
inductive RunOutcome where
  | ok
  | exn
deriving DecidableEq, Repr

/-- `run_once`'s outcome from the handshake results: a dead session or a
falsy `forward_open()` reply raises `ConnectionError`. -/
def run_once_outcome (session_connected forward_open_ok : Bool) : RunOutcome :=
  if !session_connected then .exn
  else if !forward_open_ok then .exn
  else .ok

/-- The observations of one loop iteration: the stop flag at the `while`
condition, the `run_once` outcome, and the stop flag at each of the three
later check sites (inside the `except` handler; after a normal return;
after the 2-second sleep). -/
structure IterObs where
  entry_stop : Bool
  outcome : RunOutcome
  exn_stop : Bool
  post_stop : Bool
  sleep_stop : Bool
deriving DecidableEq, Repr

/-- The decision taken at the end of one iteration body: `some d` means the
loop runs again after sleeping `d` seconds, `none` means it breaks. -/
def loop_iter_decision (auto : Bool) (o : IterObs) : Option Nat :=
  match o.outcome with
  | .exn => if auto && !o.exn_stop then some 2 else none
  | .ok =>
    if o.post_stop then none
    else if !auto then none
    else if o.sleep_stop then none
    else some 2

/-- The number of `run_once` connection attempts the thread makes, given
the per-iteration observations (the list length bounds the horizon). -/
def comm_thread_attempts (auto : Bool) : List IterObs → Nat
  | [] => 0
  | o :: rest =>
    if auto || !o.entry_stop then
      1 + (match loop_iter_decision auto o with
           | some _ => comm_thread_attempts auto rest
           | none => 0)
    else 0

/-! ## Helper lemmas -/

theorem length_toBytesLE (v n : Nat) : (toBytesLE v n).length = n := by
  induction n generalizing v with
  | zero => rfl
  | succ n ih => simp [toBytesLE, ih]

theorem toBytesLE_lt (v n : Nat) : ∀ b ∈ toBytesLE v n, b < 256 := by
  induction n generalizing v with
  | zero => intro b hb; simp [toBytesLE] at hb
  | succ n ih =>
    intro b hb
    simp only [toBytesLE, List.mem_cons] at hb
    rcases hb with h | h
    · omega
    · exact ih _ _ h

theorem fromBytesLE_toBytesLE (n : Nat) (v : Nat) (h : v < 256 ^ n) :
    fromBytesLE (toBytesLE v n) = v := by
  induction n generalizing v with
  | zero => simp at h; simp [toBytesLE, fromBytesLE, h]
  | succ n ih =>
    have hdiv : v / 256 < 256 ^ n := by
      rw [Nat.div_lt_iff_lt_mul (by norm_num)]
      calc v < 256 ^ (n + 1) := h
        _ = 256 ^ n * 256 := by ring
    simp [toBytesLE, fromBytesLE, ih _ hdiv, Nat.mod_add_div']
    omega

theorem toBytesLE_fromBytesLE (l : List Nat) (h : ∀ b ∈ l, b < 256) :
    toBytesLE (fromBytesLE l) l.length = l := by
  induction l with
  | nil => rfl
  | cons b bs ih =>
    have hb : b < 256 := h b (by simp)
    have hmod : (b + 256 * fromBytesLE bs) % 256 = b := by
      omega
    have hdiv : (b + 256 * fromBytesLE bs) / 256 = fromBytesLE bs := by
      omega
    simp [fromBytesLE, toBytesLE, hmod, hdiv,
      ih (fun x hx => h x (by simp [hx]))]

theorem fromBytesLE_lt (l : List Nat) (h : ∀ b ∈ l, b < 256) :
    fromBytesLE l < 256 ^ l.length := by
  induction l with
  | nil => simp [fromBytesLE]
  | cons b bs ih =>
    have hb : b < 256 := h b (by simp)
    have := ih (fun x hx => h x (by simp [hx]))
    simp only [fromBytesLE, List.length_cons, pow_succ]
    calc b + 256 * fromBytesLE bs < 256 + 256 * fromBytesLE bs := by omega
      _ = 256 * (fromBytesLE bs + 1) := by ring
      _ ≤ 256 * 256 ^ bs.length := by
          have : fromBytesLE bs + 1 ≤ 256 ^ bs.length := this
          exact Nat.mul_le_mul_left _ this
      _ = 256 ^ bs.length * 256 := by ring

/-- Applying `_reverse_bytes` twice at the same width is the identity on
integers that fit in that width. -/
theorem reverse_bytes_involutive (v n : Nat) (h : v < 256 ^ n) :
    reverse_bytes (reverse_bytes v n) n = v := by
  unfold reverse_bytes
  have hd : ∀ b ∈ (toBytesLE v n).reverse, b < 256 := by
    intro b hb
    exact toBytesLE_lt v n b (List.mem_reverse.mp hb)
  have hlen : (toBytesLE v n).reverse.length = n := by
    simp [length_toBytesLE]
  calc fromBytesLE ((toBytesLE (fromBytesLE ((toBytesLE v n).reverse)) n).reverse)
      = fromBytesLE ((toBytesLE (fromBytesLE ((toBytesLE v n).reverse))
          ((toBytesLE v n).reverse).length).reverse) := by rw [hlen]
    _ = fromBytesLE (((toBytesLE v n).reverse).reverse) := by
          rw [toBytesLE_fromBytesLE _ hd]
    _ = fromBytesLE (toBytesLE v n) := by rw [List.reverse_reverse]
    _ = v := fromBytesLE_toBytesLE n v h

theorem reverse_bytes_one (v : Nat) : reverse_bytes v 1 = v % 256 := by
  simp [reverse_bytes, toBytesLE, fromBytesLE]

theorem insertByKey_perm (le : α → α → Bool) (a : α) (l : List α) :
    (insertByKey le a l).Perm (a :: l) := by
  induction l with
  | nil => simp [insertByKey]
  | cons b bs ih =>
    by_cases h : le b a = true
    · simp only [insertByKey, h, if_pos]
      exact (ih.cons b).trans (List.Perm.swap a b bs)
    · simp [insertByKey, h]

theorem stableSort_perm (le : α → α → Bool) (l : List α) :
    (stableSort le l).Perm l := by
  suffices h : ∀ (l acc : List α),
      (l.foldl (fun acc a => insertByKey le a acc) acc).Perm (acc ++ l) by
    simpa using h l []
  intro l
  induction l with
  | nil => simp
  | cons a as ih =>
    intro acc
    refine (ih _).trans ?_
    refine ((insertByKey_perm le a acc).append_right as).trans ?_
    simpa using (@List.perm_middle _ a acc as).symm

theorem getFieldVal_setFieldVal (cls : PacketClass) (st : PacketState)
    (name : String) (v : StoredVal) :
    getFieldVal cls (setFieldVal st name v) name = some v := by
  simp [getFieldVal, setFieldVal, List.find?]

theorem set_float_err (st : PacketState) (name : String) (raw : RawValue)
    (e : FieldMutationErr) (h : (set_float st name raw).2 = some e) :
    (set_float st name raw).1 = st := by
  unfold set_float at h ⊢
  revert h
  cases float_pattern raw with
  | none => intro _; rfl
  | some p => intro h; simp at h

theorem set_bit_err (st : PacketState) (name : String) (raw : RawValue)
    (e : FieldMutationErr) (h : (set_bit st name raw).2 = some e) :
    (set_bit st name raw).1 = st := by
  unfold set_bit at h ⊢
  cases raw with
  | num i p =>
    dsimp only at h ⊢
    by_cases hi : i = 0 ∨ i = 1
    · rw [if_pos hi] at h; simp at h
    · rw [if_neg hi]
  | txt bs iv fp =>
    dsimp only at h ⊢
    by_cases h0 : bs = [0x30]
    · rw [if_pos h0] at h; simp at h
    · rw [if_neg h0] at h ⊢
      by_cases h1 : bs = [0x31]
      · rw [if_pos h1] at h; simp at h
      · rw [if_neg h1]
  | bin bs => rfl

theorem set_byte_err (st : PacketState) (name : String) (raw : RawValue)
    (e : FieldMutationErr) (h : (set_byte st name raw).2 = some e) :
    (set_byte st name raw).1 = st := by
  unfold set_byte at h ⊢
  revert h
  cases parse_int raw with
  | none => intro _; rfl
  | some v =>
    intro h
    dsimp only at h ⊢
    by_cases hr : 0 ≤ v ∧ v ≤ 0xFF
    · rw [if_pos hr] at h; simp at h
    · rw [if_neg hr]

theorem set_short_err (st : PacketState) (name : String) (raw : RawValue)
    (e : FieldMutationErr) (h : (set_short st name raw).2 = some e) :
    (set_short st name raw).1 = st := by
  unfold set_short at h ⊢
  revert h
  cases parse_int raw with
  | none => intro _; rfl
  | some v =>
    intro h
    dsimp only at h ⊢
    by_cases hr : 0 ≤ v ∧ v ≤ 0xFFFF
    · rw [if_pos hr] at h; simp at h
    · rw [if_neg hr]

/-! ## Layout compiler lemmas -/

theorem cip_data_type_size_pos (t : String) : 1 ≤ cip_data_type_size t := by
  unfold cip_data_type_size
  split_ifs <;> norm_num

theorem entry_bits_len_of_bool {e : SchemaField} (h : e.typ = "bool") :
    entry_bits_len e = 1 := by
  simp [entry_bits_len, h]

theorem entry_bits_len_of_not_bool {e : SchemaField} (h : e.typ ≠ "bool") :
    entry_bits_len e = 8 * (e.length * cip_data_type_size e.typ) := by
  simp [entry_bits_len, h]

theorem bits_of_bool {e : SchemaField} (h : e.typ = "bool") :
    bits_of e = [e.offset] := by
  simp [bits_of, entry_bits_len_of_bool h, List.range'_one]

theorem all_bits_append (l₁ l₂ : List SchemaField) :
    all_bits (l₁ ++ l₂) = all_bits l₁ ++ all_bits l₂ :=
  List.flatMap_append l₁ l₂ bits_of

theorem all_bits_cons (e : SchemaField) (l : List SchemaField) :
    all_bits (e :: l) = bits_of e ++ all_bits l :=
  List.flatMap_cons e l bits_of

theorem all_bits_nil : all_bits ([] : List SchemaField) = [] := rfl

theorem all_bits_perm {l₁ l₂ : List SchemaField} (h : l₁.Perm l₂) :
    (all_bits l₁).Perm (all_bits l₂) := by
  induction h with
  | nil => exact List.Perm.refl _
  | cons x h ih =>
    rw [all_bits_cons, all_bits_cons]
    exact ih.append_left _
  | swap x y l =>
    rw [all_bits_cons, all_bits_cons, all_bits_cons, all_bits_cons,
      ← List.append_assoc, ← List.append_assoc]
    exact List.perm_append_comm.append_right _
  | trans h1 h2 ih1 ih2 => exact ih1.trans ih2

theorem all_bits_singletons {l : List SchemaField}
    (h : ∀ e ∈ l, e.typ = "bool") :
    all_bits l = l.map (fun e => e.offset) := by
  induction l with
  | nil => rfl
  | cons e t ih =>
    rw [all_bits_cons, bits_of_bool (h e (by simp)),
      ih (fun x hx => h x (by simp [hx]))]
    rfl

theorem flush_pad_bits (tpi tpl : Nat) :
    all_bits (flush_pad tpi tpl) = List.range' (8 * tpi) (8 * tpl) := by
  unfold flush_pad
  by_cases h : 0 < tpl
  · rw [if_pos h]
    simp [all_bits, bits_of, spare_byte_entry, entry_bits_len,
      cip_data_type_size]
  · rw [if_neg h]
    have : tpl = 0 := by omega
    simp [all_bits, this]

theorem mem_pre_bools {sd : List SchemaField} {e : SchemaField} :
    e ∈ pre_bools sd ↔ ∃ f ∈ sd, f.typ = "bool" ∧ e = mk_bool_entry f := by
  simp only [pre_bools, List.mem_map, List.mem_filter]
  constructor
  · rintro ⟨f, ⟨hf, ht⟩, rfl⟩
    exact ⟨f, hf, by simpa using ht, rfl⟩
  · rintro ⟨f, hf, ht, rfl⟩
    exact ⟨f, ⟨hf, by simpa using ht⟩, rfl⟩

theorem pre_bools_typ {sd : List SchemaField} {e : SchemaField}
    (h : e ∈ pre_bools sd) : e.typ = "bool" := by
  obtain ⟨f, -, -, rfl⟩ := mem_pre_bools.mp h
  rfl

theorem bools_in_byte_isEmpty {sd : List SchemaField} {b : Nat} :
    (bools_in_byte sd b).isEmpty = true ↔
      ∀ f ∈ sd, f.typ = "bool" → f.offset / 8 ≠ b := by
  rw [List.isEmpty_iff, bools_in_byte, List.filter_eq_nil_iff]
  constructor
  · intro h f hf ht hb
    exact h (mk_bool_entry f) (mem_pre_bools.mpr ⟨f, hf, ht, rfl⟩)
      (by simpa [mk_bool_entry] using hb)
  · intro h e he
    obtain ⟨f, hf, ht, rfl⟩ := mem_pre_bools.mp he
    simpa [mk_bool_entry] using h f hf ht

/-- Splitting a filter into two mutually exclusive filters, up to
permutation. -/
theorem filter_split_perm {α : Type} (p q r : α → Bool) (l : List α)
    (hsplit : ∀ a ∈ l, p a = (q a || r a)) (hexcl : ∀ a ∈ l, ¬(q a = true ∧ r a = true)) :
    (l.filter p).Perm (l.filter q ++ l.filter r) := by
  induction l with
  | nil => exact List.Perm.refl _
  | cons a t ih =>
    have ihp := ih (fun x hx => hsplit x (by simp [hx]))
      (fun x hx => hexcl x (by simp [hx]))
    have hpa := hsplit a (by simp)
    by_cases hq : q a = true
    · have hr : r a = false := by
        rcases hra : r a with _ | _
        · rfl
        · exact absurd ⟨hq, hra⟩ (hexcl a (by simp))
      have hp : p a = true := by rw [hpa, hq]; rfl
      simp only [List.filter_cons, hp, hq, hr]
      simpa using ihp.cons a
    · have hq' : q a = false := by
        rcases hqa : q a with _ | _
        · rfl
        · exact absurd hqa hq
      by_cases hr : r a = true
      · have hp : p a = true := by rw [hpa, hq', hr]; rfl
        simp only [List.filter_cons, hp, hq', hr]
        refine (ihp.cons a).trans ?_
        simpa using (@List.perm_middle _ a (t.filter q) (t.filter r)).symm
      · have hr' : r a = false := by
          rcases hra : r a with _ | _
          · rfl
          · exact absurd hra hr
        have hp : p a = false := by rw [hpa, hq', hr']; rfl
        simp only [List.filter_cons, hp, hq', hr']
        exact ihp

theorem future_bools_split (sd : List SchemaField) (b : Nat) :
    (future_bools sd b).Perm
      (bools_in_byte sd b ++ future_bools sd (b + 1)) := by
  unfold future_bools bools_in_byte
  exact filter_split_perm _ _ _ _
    (by
      intro a _
      by_cases h : a.offset / 8 = b
      · simp [h]
      · have hne : (a.offset / 8 == b) = false := by simpa using h
        rw [hne, Bool.false_or, decide_eq_decide]
        omega)
    (by
      intro a _
      simp only [beq_iff_eq, decide_eq_true_eq]
      omega)

theorem future_bools_zero (sd : List SchemaField) :
    future_bools sd 0 = pre_bools sd := by
  unfold future_bools
  rw [List.filter_eq_self]
  intro a _
  simp

theorem future_bools_stable {sd : List SchemaField} {b : Nat}
    (h : ∀ f ∈ sd, f.typ = "bool" → f.offset / 8 ≠ b) :
    future_bools sd b = future_bools sd (b + 1) := by
  unfold future_bools
  refine List.filter_congr ?_
  intro e he
  obtain ⟨f, hf, ht, rfl⟩ := mem_pre_bools.mp he
  have := h f hf ht
  simp only [mk_bool_entry] at this ⊢
  simp only [decide_eq_decide]
  omega

theorem foldl_upsert_eq (l : List SchemaField) :
    ∀ acc : List SchemaField,
      ((acc ++ l).map (fun f => f.id)).Nodup →
      l.foldl dict_upsert acc = acc ++ l := by
  induction l with
  | nil => intro acc _; simp
  | cons f t ih =>
    intro acc hnd
    have hnotin : ¬ acc.any (fun g => g.id == f.id) = true := by
      simp only [List.any_eq_true, beq_iff_eq, not_exists, not_and]
      intro g hg hgf
      have hgid : g.id ∈ (acc.map (fun f => f.id)) := List.mem_map_of_mem _ hg
      have hfid : f.id ∈ ((f :: t).map (fun f => f.id)) := by simp
      have := (List.nodup_append.mp (by simpa using hnd)).2.2
      exact this hgid (by simpa [hgf] using hfid)
    have hstep : dict_upsert acc f = acc ++ [f] := by
      unfold dict_upsert
      rw [if_neg hnotin]
    rw [List.foldl_cons, hstep, ih (acc ++ [f]) (by simpa using hnd)]
    simp

theorem sorted_dict_perm (fields : List SchemaField)
    (h : (fields.map (fun f => f.id)).Nodup) :
    (sorted_dict fields).Perm fields := by
  unfold sorted_dict
  have hperm := stableSort_perm
    (fun a b : SchemaField => decide (a.offset ≤ b.offset)) fields
  have hnd : ((stableSort (fun a b : SchemaField =>
      decide (a.offset ≤ b.offset)) fields).map (fun f => f.id)).Nodup :=
    ((hperm.map (fun f => f.id)).nodup_iff).mpr h
  rw [foldl_upsert_eq _ [] (by simpa using hnd)]
  simpa using hperm

theorem filterMap_if_none {α β : Type} (p : α → Bool) (g : α → β)
    (l : List α) :
    l.filterMap (fun i => if p i then none else some (g i)) =
      (l.filter (fun i => !p i)).map g := by
  induction l with
  | nil => rfl
  | cons a t ih =>
    by_cases h : p a = true
    · simp [List.filterMap_cons, List.filter_cons, h, ih]
    · have h' : p a = false := by
        rcases ha : p a with _ | _
        · rfl
        · exact absurd ha h
      simp [List.filterMap_cons, List.filter_cons, h', ih]

/-- The pre-placed BOOLs of byte `b` together with the synthesized spare
bits cover the byte's eight bit positions exactly once. -/
theorem pack_spare_bits_cover (b : Nat) (pack : List SchemaField)
    (hmem : ∀ e ∈ pack, e.typ = "bool" ∧ e.offset / 8 = b)
    (hnd : (pack.map (fun e => e.offset)).Nodup) :
    (all_bits pack ++ all_bits (spare_bits_for b pack)).Perm
      (List.range' (8 * b) 8) := by
  have hbools : ∀ e ∈ pack, e.typ = "bool" := fun e he => (hmem e he).1
  rw [all_bits_singletons hbools]
  set S := pack.map (fun e => e.offset % 8) with hS
  have hSsub : ∀ i ∈ S, i ∈ List.range 8 := by
    intro i hi
    obtain ⟨e, -, rfl⟩ := List.mem_map.mp hi
    simp only [List.mem_range]
    omega
  have hSnd : S.Nodup := by
    rw [hS]
    have : pack.map (fun e => e.offset % 8) =
        (pack.map (fun e => e.offset)).map (fun o => o % 8) := by
      rw [List.map_map]
      rfl
    rw [this]
    refine List.Nodup.map_on ?_ hnd
    intro x hx y hy hxy
    obtain ⟨ex, hex, rfl⟩ := List.mem_map.mp hx
    obtain ⟨ey, hey, rfl⟩ := List.mem_map.mp hy
    have hbx := (hmem ex hex).2
    have hby := (hmem ey hey).2
    omega
  have hoff : pack.map (fun e => e.offset) = S.map (fun i => 8 * b + i) := by
    rw [hS, List.map_map]
    refine List.map_congr_left ?_
    intro e he
    have := (hmem e he).2
    simp only [Function.comp_apply]
    omega
  have hspare : all_bits (spare_bits_for b pack) =
      ((List.range 8).filter (fun i => !S.contains i)).map
        (fun i => 8 * b + i) := by
    unfold spare_bits_for
    rw [← hS, filterMap_if_none]
    rw [all_bits_singletons (by
      intro e he
      obtain ⟨i, -, rfl⟩ := List.mem_map.mp he
      rfl)]
    rw [List.map_map]
    refine List.map_congr_left ?_
    intro i _
    simp [spare_bit_entry]
  rw [hoff, hspare, ← List.map_append]
  have hcont : ∀ a : Nat, S.contains a = true ↔ a ∈ S := by
    intro a
    rw [List.contains_iff_exists_mem_beq]
    simp
  have hfill : (S ++ (List.range 8).filter (fun i => !S.contains i)).Perm
      (List.range 8) := by
    have h1 : S.Perm ((List.range 8).filter (fun i => S.contains i)) := by
      rw [List.perm_ext_iff_of_nodup hSnd
        (((List.nodup_range 8)).filter _)]
      intro a
      simp only [List.mem_filter, List.mem_range]
      constructor
      · intro ha
        exact ⟨List.mem_range.mp (hSsub a ha), (hcont a).mpr ha⟩
      · rintro ⟨-, hc⟩
        exact (hcont a).mp hc
    refine (h1.append_right _).trans ?_
    exact List.filter_append_perm _ _
  have hmap := hfill.map (fun i => 8 * b + i)
  refine hmap.trans (List.Perm.of_eq ?_)
  rw [List.range'_eq_map_range]

theorem find_non_bool_none {sd : List SchemaField} {b : Nat}
    (h : find_non_bool sd b = none) :
    ∀ f ∈ sd, ¬(f.offset = 8 * b ∧ f.typ ≠ "bool") := by
  intro f hf ⟨ho, ht⟩
  have := List.find?_eq_none.mp h f hf
  simp only [Bool.and_eq_true, beq_iff_eq, bne_iff_ne, ne_eq,
    not_and, Bool.not_eq_true] at this
  exact absurd ho (by
    intro hh
    exact ht (by simpa using this (by simpa using hh)))

theorem find_non_bool_some {sd : List SchemaField} {b : Nat}
    {f : SchemaField} (h : find_non_bool sd b = some f) :
    f ∈ sd ∧ f.offset = 8 * b ∧ f.typ ≠ "bool" := by
  have hmem := List.mem_of_find?_eq_some h
  have hp := List.find?_some h
  simp only [Bool.and_eq_true, beq_iff_eq, bne_iff_ne, ne_eq] at hp
  exact ⟨hmem, hp.1, hp.2⟩

theorem fields_disjoint_symm {a b : SchemaField} (h : fields_disjoint a b) :
    fields_disjoint b a := fun x hxb hxa => h x hxa hxb

theorem mem_bits_nonbool {f : SchemaField} (hnb : f.typ ≠ "bool") {x : Nat} :
    x ∈ bits_of f ↔ f.offset ≤ x ∧
      x < f.offset + 8 * (f.length * cip_data_type_size f.typ) := by
  rw [bits_of, entry_bits_len_of_not_bool hnb, List.mem_range'_1]

theorem pre_bools_offsets_nodup {sd : List SchemaField}
    (hids : (sd.map (fun f => f.id)).Nodup)
    (hpw : sd.Pairwise fields_disjoint) :
    ((pre_bools sd).map (fun e => e.offset)).Nodup := by
  have hsdnd : sd.Nodup := hids.of_map
  have hfil : (sd.filter (fun f => f.typ == "bool")).Nodup := hsdnd.filter _
  unfold pre_bools
  rw [List.map_map]
  refine List.Nodup.map_on ?_ hfil
  intro x hx y hy hxy
  by_contra hne
  have hxm := List.mem_of_mem_filter hx
  have hym := List.mem_of_mem_filter hy
  have hxb : x.typ = "bool" := by simpa using (List.mem_filter.mp hx).2
  have hyb : y.typ = "bool" := by simpa using (List.mem_filter.mp hy).2
  have hdis := List.Pairwise.forall
    (fun _ _ h => fields_disjoint_symm h) hpw hxm hym hne
  refine hdis x.offset (by rw [bits_of_bool hxb]; simp) ?_
  rw [bits_of_bool hyb]
  simp only [Function.comp_apply, mk_bool_entry] at hxy
  simp [hxy]

theorem mem_bools_in_byte {sd : List SchemaField} {b : Nat}
    {e : SchemaField} (h : e ∈ bools_in_byte sd b) :
    e.typ = "bool" ∧ e.offset / 8 = b := by
  rw [bools_in_byte, List.mem_filter] at h
  exact ⟨pre_bools_typ h.1, by simpa using h.2⟩

theorem bools_in_byte_offsets_nodup {sd : List SchemaField}
    (hids : (sd.map (fun f => f.id)).Nodup)
    (hpw : sd.Pairwise fields_disjoint) (b : Nat) :
    ((bools_in_byte sd b).map (fun e => e.offset)).Nodup := by
  refine List.Nodup.sublist ?_ (pre_bools_offsets_nodup hids hpw)
  exact (List.filter_sublist _).map _

/-- Inside a layout whose bits are pairwise distinct, two distinct entries
cannot cover a common bit. -/
theorem all_bits_nodup_disjoint {L : List SchemaField}
    (hnd : (all_bits L).Nodup) {e₁ e₂ : SchemaField} (h₁ : e₁ ∈ L)
    (h₂ : e₂ ∈ L) (hne : e₁ ≠ e₂) {x : Nat} (hx₁ : x ∈ bits_of e₁)
    (hx₂ : x ∈ bits_of e₂) : False := by
  have hperm : L.Perm (e₁ :: L.erase e₁) := List.perm_cons_erase h₁
  have h₂' : e₂ ∈ L.erase e₁ :=
    (List.mem_erase_of_ne (by simpa using hne.symm)).mpr h₂
  have hnd' : (all_bits (e₁ :: L.erase e₁)).Nodup :=
    ((all_bits_perm hperm).nodup_iff).mp hnd
  rw [all_bits_cons] at hnd'
  have hdisj := (List.nodup_append.mp hnd').2.2
  exact hdisj hx₁ (List.mem_flatMap.mpr ⟨e₂, h₂', hx₂⟩)

/-- The byte-scan invariant of `create_packet_dict`.  Scanning bytes
`b .. N-1` of a well-formed schema, with `k` tail bytes of an already
emitted multi-byte field still to skip and a pending pad run of `tpl`
bytes starting at `tpi`, emits entries that — together with the pre-placed
BOOLs of unscanned bytes — cover exactly the pending pad bits plus all bits
from `8*(b+k)` to the end, each exactly once; it emits every not yet
emitted declared non-BOOL field, and nothing but declared fields and
spares. -/
theorem scan_emit_spec (sd : List SchemaField) (N : Nat)
    (hids : (sd.map (fun f => f.id)).Nodup)
    (hpw : sd.Pairwise fields_disjoint)
    (hbound : ∀ f ∈ sd, f.offset + entry_bits_len f ≤ 8 * N)
    (halign : ∀ f ∈ sd, f.typ ≠ "bool" → f.offset % 8 = 0)
    (hlen : ∀ f ∈ sd, 1 ≤ f.length) :
    ∀ (n b k tpi tpl : Nat),
      b + n = N →
      tpl ≤ b →
      (0 < tpl → tpi = b - tpl) →
      (k ≠ 0 → tpl = 0) →
      (∀ j, b - tpl ≤ j → j < b → byte_free sd j) →
      (∀ f ∈ sd, f.typ ≠ "bool" → f.offset / 8 < b →
        f.offset / 8 + f.length * cip_data_type_size f.typ ≤ b + k) →
      (k ≠ 0 → ∃ f ∈ sd, f.typ ≠ "bool" ∧ f.offset / 8 < b ∧
        f.offset / 8 + f.length * cip_data_type_size f.typ = b + k) →
      (all_bits (scan_emit sd b n (k : Int) tpi tpl) ++
          all_bits (future_bools sd b)).Perm
        (List.range' (8 * (b - tpl)) (8 * tpl) ++
          List.range' (8 * (b + k)) (8 * N - 8 * (b + k))) ∧
      (∀ f ∈ sd, f.typ ≠ "bool" → b ≤ f.offset / 8 →
        mk_field_entry (f.offset / 8) f ∈
          scan_emit sd b n (k : Int) tpi tpl) ∧
      (∀ e ∈ scan_emit sd b n (k : Int) tpi tpl,
        (∃ f ∈ sd, f.typ ≠ "bool" ∧ e = mk_field_entry (f.offset / 8) f) ∨
        is_spare_bit e ∨ is_spare_byte e) := by
  have hdisj : ∀ {f g : SchemaField}, f ∈ sd → g ∈ sd → f ≠ g →
      ∀ x, x ∈ bits_of f → x ∉ bits_of g := fun hf hg hne =>
    List.Pairwise.forall (fun _ _ h => fields_disjoint_symm h) hpw hf hg hne
  have hbl1 : ∀ f ∈ sd, 1 ≤ f.length * cip_data_type_size f.typ := by
    intro f hf
    have h1 := hlen f hf
    have h2 := cip_data_type_size_pos f.typ
    calc 1 = 1 * 1 := rfl
      _ ≤ f.length * cip_data_type_size f.typ := Nat.mul_le_mul h1 h2
  have hcover_bool : ∀ g ∈ sd, g.typ ≠ "bool" → ∀ f ∈ sd, f.typ = "bool" →
      g.offset / 8 ≤ f.offset / 8 →
      f.offset / 8 < g.offset / 8 + g.length * cip_data_type_size g.typ →
      False := by
    intro g hg hgnb f hf hfb hle hlt
    have hga := halign g hg hgnb
    have hne : g ≠ f := fun h => hgnb (h ▸ hfb)
    refine hdisj hg hf hne f.offset ?_ ?_
    · rw [mem_bits_nonbool hgnb]
      omega
    · rw [bits_of_bool hfb]
      simp
  have hcover_nonbool : ∀ g ∈ sd, g.typ ≠ "bool" → ∀ h ∈ sd,
      h.typ ≠ "bool" → g ≠ h → ∀ j, g.offset / 8 ≤ j →
      j < g.offset / 8 + g.length * cip_data_type_size g.typ →
      h.offset / 8 ≤ j →
      j < h.offset / 8 + h.length * cip_data_type_size h.typ → False := by
    intro g hg hgnb h hh hhnb hne j hg1 hg2 hh1 hh2
    have hga := halign g hg hgnb
    have hha := halign h hh hhnb
    refine hdisj hg hh hne (8 * j) ?_ ?_
    · rw [mem_bits_nonbool hgnb]
      omega
    · rw [mem_bits_nonbool hhnb]
      omega
  intro n
  induction n with
  | zero =>
    intro b k tpi tpl hbn htplb htpi hktpl hfree hcov hex
    have hbn0 : b = N := by omega
    have hk0 : k = 0 := by
      by_contra hk
      obtain ⟨f, hf, hnb, hlt, hend⟩ := hex hk
      have hb := hbound f hf
      rw [entry_bits_len_of_not_bool hnb] at hb
      have ha := halign f hf hnb
      omega
    subst hk0
    have hfb : future_bools sd b = [] := by
      unfold future_bools
      rw [List.filter_eq_nil_iff]
      intro e he
      obtain ⟨f, hf, ht, rfl⟩ := mem_pre_bools.mp he
      have hb := hbound f hf
      rw [entry_bits_len_of_bool ht] at hb
      simp only [mk_bool_entry, decide_eq_true_eq]
      omega
    have hsc : scan_emit sd b 0 ((0 : Nat) : Int) tpi tpl =
        flush_pad tpi tpl := rfl
    refine ⟨?_, ?_, ?_⟩
    · rw [hsc, hfb, flush_pad_bits]
      rw [List.perm_iff_count]
      intro x
      simp only [List.count_append, all_bits, List.flatMap_nil,
        List.count_nil]
      have e1 : 8 * N - 8 * (b + 0) = 0 := by omega
      rw [e1, List.range'_zero]
      simp only [List.count_nil]
      by_cases h0 : 0 < tpl
      · rw [htpi h0]
      · rw [show tpl = 0 from by omega]
        simp [List.range'_zero]
    · intro f hf hnb hge
      exfalso
      have hb := hbound f hf
      rw [entry_bits_len_of_not_bool hnb] at hb
      have ha := halign f hf hnb
      have := hbl1 f hf
      omega
    · intro e he
      rw [hsc] at he
      unfold flush_pad at he
      by_cases h0 : 0 < tpl
      · rw [if_pos h0] at he
        right; right
        exact ⟨tpi, tpl, by omega, by simpa using he⟩
      · rw [if_neg h0] at he
        simp at he
  | succ n ih =>
    intro b k tpi tpl hbn htplb htpi hktpl hfree hcov hex
    have hbN : b + 1 ≤ N := by omega
    by_cases hk : k = 0
    case neg =>
      -- the byte is skipped: it belongs to the tail of an emitted field
      have hcast : ((k : Int)) ≠ 0 := by exact_mod_cast hk
      have htpl0 : tpl = 0 := hktpl hk
      subst htpl0
      have hsc : scan_emit sd b (n + 1) ((k : Nat) : Int) tpi 0 =
          scan_emit sd (b + 1) n (((k - 1 : Nat) : Nat) : Int) tpi 0 := by
        rw [scan_emit, if_pos hcast]
        congr 1
        omega
      obtain ⟨g, hg, hgnb, hglt, hgend⟩ := hex hk
      have hga := halign g hg hgnb
      have hgbl := hbl1 g hg
      have hnobool : ∀ f ∈ sd, f.typ = "bool" → f.offset / 8 ≠ b := by
        intro f hf hfb hfb8
        exact hcover_bool g hg hgnb f hf hfb (by omega) (by omega)
      have hnostart : ∀ f ∈ sd, f.typ ≠ "bool" → f.offset / 8 ≠ b := by
        intro f hf hfnb hfb8
        have hfbl := hbl1 f hf
        have hfne : f ≠ g := by
          intro h
          rw [h] at hfb8
          omega
        exact hcover_nonbool f hf hfnb g hg hgnb hfne b (by omega)
          (by omega) (by omega) (by omega)
      have hfb_eq : future_bools sd b = future_bools sd (b + 1) :=
        future_bools_stable hnobool
      have ih' := ih (b + 1) (k - 1) tpi 0 (by omega) (by omega)
        (by omega) (fun _ => rfl)
        (by intro j h1 h2; omega)
        (by
          intro f hf hfnb hflt
          by_cases hfb : f.offset / 8 < b
          · have := hcov f hf hfnb hfb
            omega
          · exfalso
            exact hnostart f hf hfnb (by omega))
        (by
          intro hk1
          exact ⟨g, hg, hgnb, by omega, by omega⟩)
      obtain ⟨ihp, ihm, ihc⟩ := ih'
      refine ⟨?_, ?_, ?_⟩
      · rw [hsc, hfb_eq]
        rw [List.perm_iff_count]
        intro x
        have h1 := ihp.count_eq x
        simp only [List.count_append, Nat.mul_zero, Nat.sub_zero,
          List.range'_zero, List.count_nil] at h1 ⊢
        rw [show (b + 1) + (k - 1) = b + k from by omega] at h1
        omega
      · intro f hf hfnb hble
        have hb1 : b + 1 ≤ f.offset / 8 := by
          rcases Nat.eq_or_lt_of_le hble with h | h
          · exact absurd h.symm (hnostart f hf hfnb)
          · omega
        rw [hsc]
        exact ihm f hf hfnb hb1
      · intro e he
        rw [hsc] at he
        exact ihc e he
    case pos =>
      subst hk
      have hc0 : ¬ (((0 : Nat) : Int)) ≠ 0 := by simp
      by_cases hpack : (bools_in_byte sd b).isEmpty
      · have hnobool : ∀ f ∈ sd, f.typ = "bool" → f.offset / 8 ≠ b :=
          bools_in_byte_isEmpty.mp hpack
        have hfb_eq : future_bools sd b = future_bools sd (b + 1) :=
          future_bools_stable hnobool
        cases hfind : find_non_bool sd b with
        | some f =>
          -- a non-BOOL field starts at byte b: emit it
          obtain ⟨hfmem, hfoff, hfnb⟩ := find_non_bool_some hfind
          have hfa : f.offset % 8 = 0 := by omega
          have hfb8 : f.offset / 8 = b := by omega
          have hfbl := hbl1 f hfmem
          have hbub : b + f.length * cip_data_type_size f.typ ≤ N := by
            have := hbound f hfmem
            rw [entry_bits_len_of_not_bool hfnb] at this
            omega
          have hsc : scan_emit sd b (n + 1) ((0 : Nat) : Int) tpi tpl =
              flush_pad tpi tpl ++ [mk_field_entry b f] ++
                scan_emit sd (b + 1) n
                  (((f.length * cip_data_type_size f.typ - 1 : Nat) :
                    Nat) : Int) (if 0 < tpl then 0 else tpi) 0 := by
            have hcastm : ((f.length : Int) *
                (cip_data_type_size f.typ : Int) - 1) =
                ((f.length * cip_data_type_size f.typ - 1 : Nat) : Int) := by
              rw [← Nat.cast_mul]
              omega
            rw [scan_emit, if_neg hc0, if_pos hpack, hfind]
            dsimp only
            rw [hcastm]
          have huniq : ∀ g ∈ sd, g.typ ≠ "bool" → g.offset / 8 = b →
              g = f := by
            intro g hg hgnb hgb8
            by_contra hne
            have hgbl := hbl1 g hg
            exact hcover_nonbool g hg hgnb f hfmem hfnb hne b (by omega)
              (by omega) (by omega) (by omega)
          have ih' := ih (b + 1) (f.length * cip_data_type_size f.typ - 1)
            (if 0 < tpl then 0 else tpi) 0 (by omega) (by omega)
            (by omega) (fun _ => rfl)
            (by intro j h1 h2; omega)
            (by
              intro g hg hgnb hglt
              by_cases hgb : g.offset / 8 < b
              · have := hcov g hg hgnb hgb
                omega
              · have hgb8 : g.offset / 8 = b := by omega
                have := huniq g hg hgnb hgb8
                subst this
                omega)
            (by
              intro hk1
              exact ⟨f, hfmem, hfnb, by omega, by omega⟩)
          obtain ⟨ihp, ihm, ihc⟩ := ih'
          have hfbits : bits_of (mk_field_entry b f) =
              List.range' (8 * b) (8 * (f.length * cip_data_type_size f.typ)) := by
            unfold bits_of mk_field_entry
            rw [entry_bits_len_of_not_bool (by exact hfnb)]
          have hr : List.range' (8 * b)
                (8 * (f.length * cip_data_type_size f.typ)) ++
              List.range'
                (8 * (b + f.length * cip_data_type_size f.typ))
                (8 * N -
                  8 * (b + f.length * cip_data_type_size f.typ)) =
              List.range' (8 * b) (8 * N - 8 * b) := by
            have h := List.range'_append (8 * b)
              (8 * (f.length * cip_data_type_size f.typ))
              (8 * N - 8 * (b + f.length * cip_data_type_size f.typ)) 1
            rw [show 8 * b + 1 * (8 * (f.length * cip_data_type_size f.typ))
                = 8 * (b + f.length * cip_data_type_size f.typ) from by
              ring] at h
            rw [show (8 * N -
                8 * (b + f.length * cip_data_type_size f.typ)) +
                8 * (f.length * cip_data_type_size f.typ) =
                8 * N - 8 * b from by omega] at h
            exact h
          refine ⟨?_, ?_, ?_⟩
          · rw [hsc, hfb_eq]
            rw [List.perm_iff_count]
            intro x
            have h1 := ihp.count_eq x
            simp only [List.count_append, Nat.mul_zero, Nat.sub_zero,
              List.range'_zero, List.count_nil] at h1
            rw [show (b + 1) + (f.length * cip_data_type_size f.typ - 1)
                = b + f.length * cip_data_type_size f.typ from by
              omega] at h1
            have hcr := congrArg (List.count x) hr
            simp only [List.count_append] at hcr
            have hflush2 : List.count x (all_bits (flush_pad tpi tpl)) =
                List.count x (List.range' (8 * (b - tpl)) (8 * tpl)) := by
              by_cases h0 : 0 < tpl
              · rw [flush_pad_bits, htpi h0]
              · rw [flush_pad_bits, show tpl = 0 from by omega]
                simp [List.range'_zero]
            rw [all_bits_append, all_bits_append, all_bits_cons,
              all_bits_nil, List.append_nil, hfbits]
            simp only [List.count_append]
            rw [show b + 0 = b from by omega]
            omega
          · intro g hg hgnb hble
            rw [hsc]
            by_cases hgb : g.offset / 8 = b
            · have hgf : g = f := huniq g hg hgnb hgb
              subst hgf
              rw [hgb]
              simp [List.mem_append]
            · have hb1 : b + 1 ≤ g.offset / 8 := by omega
              have := ihm g hg hgnb hb1
              simp only [List.mem_append]
              right
              exact this
          · intro e he
            rw [hsc] at he
            simp only [List.mem_append] at he
            rcases he with (hfl | hef) | hrec
            · right; right
              unfold flush_pad at hfl
              by_cases h0 : 0 < tpl
              · rw [if_pos h0] at hfl
                exact ⟨tpi, tpl, by omega, by simpa using hfl⟩
              · rw [if_neg h0] at hfl
                simp at hfl
            · left
              refine ⟨f, hfmem, hfnb, ?_⟩
              rw [hfb8]
              simpa using hef
            · exact ihc e hrec
        | none =>
          -- byte b is unclaimed: extend the pending pad run
          have hnof := find_non_bool_none hfind
          have hsc : scan_emit sd b (n + 1) ((0 : Nat) : Int) tpi tpl =
              scan_emit sd (b + 1) n ((0 : Nat) : Int)
                (if tpl = 0 then b else tpi) (tpl + 1) := by
            rw [scan_emit, if_neg hc0, if_pos hpack, hfind]
            rfl
          have hbfree : byte_free sd b := by
            constructor
            · exact hnobool
            · intro g hg hgnb hcovb
              have hga := halign g hg hgnb
              by_cases hgb : g.offset / 8 < b
              · have := hcov g hg hgnb hgb
                omega
              · have hgb8 : g.offset / 8 = b := by omega
                exact hnof g hg ⟨by omega, hgnb⟩
          have ih' := ih (b + 1) 0 (if tpl = 0 then b else tpi) (tpl + 1)
            (by omega) (by omega)
            (by
              intro _
              by_cases h0 : tpl = 0
              · rw [if_pos h0]
                omega
              · rw [if_neg h0, htpi (by omega)]
                omega)
            (fun h => absurd rfl h)
            (by
              intro j h1 h2
              by_cases hj : j = b
              · subst hj
                exact hbfree
              · exact hfree j (by omega) (by omega))
            (by
              intro g hg hgnb hglt
              by_cases hgb : g.offset / 8 < b
              · have := hcov g hg hgnb hgb
                omega
              · have hgb8 : g.offset / 8 = b := by omega
                have hga := halign g hg hgnb
                exact absurd ⟨by omega, hgnb⟩ (hnof g hg))
            (fun h => absurd rfl h)
          obtain ⟨ihp, ihm, ihc⟩ := ih'
          refine ⟨?_, ?_, ?_⟩
          · rw [hsc, hfb_eq]
            rw [List.perm_iff_count]
            intro x
            have h1 := ihp.count_eq x
            simp only [List.count_append] at h1 ⊢
            have hp1 : List.range' (8 * (b - tpl)) (8 * tpl) ++
                List.range' (8 * b) 8 =
                List.range' (8 * (b - tpl)) (8 * (tpl + 1)) := by
              have h := List.range'_append (8 * (b - tpl)) (8 * tpl) 8 1
              rw [show 8 * (b - tpl) + 1 * (8 * tpl) = 8 * b from by
                omega] at h
              rw [show (8 : Nat) + 8 * tpl = 8 * (tpl + 1) from by
                ring] at h
              exact h
            have hp2 : List.range' (8 * b) 8 ++
                List.range' (8 * (b + 1)) (8 * N - 8 * (b + 1)) =
                List.range' (8 * b) (8 * N - 8 * b) := by
              have h := List.range'_append (8 * b) 8
                (8 * N - 8 * (b + 1)) 1
              rw [show 8 * b + 1 * 8 = 8 * (b + 1) from by ring] at h
              rw [show (8 * N - 8 * (b + 1)) + 8 = 8 * N - 8 * b from by
                omega] at h
              exact h
            have hc1 := congrArg (List.count x) hp1
            have hc2 := congrArg (List.count x) hp2
            simp only [List.count_append] at hc1 hc2
            rw [show (b + 1) - (tpl + 1) = b - tpl from by omega] at h1
            rw [show b + 1 + 0 = b + 1 from by omega] at h1
            rw [show b + 0 = b from by omega]
            omega
          · intro g hg hgnb hble
            have hb1 : b + 1 ≤ g.offset / 8 := by
              rcases Nat.eq_or_lt_of_le hble with h | h
              · exfalso
                have hga := halign g hg hgnb
                exact hnof g hg ⟨by omega, hgnb⟩
              · omega
            rw [hsc]
            exact ihm g hg hgnb hb1
          · intro e he
            rw [hsc] at he
            exact ihc e he
      · -- byte b carries BOOLs: emit its spare bits
        have hsc : scan_emit sd b (n + 1) ((0 : Nat) : Int) tpi tpl =
            flush_pad tpi tpl ++
              spare_bits_for b (bools_in_byte sd b) ++
              scan_emit sd (b + 1) n ((0 : Nat) : Int)
                (if 0 < tpl then 0 else tpi) 0 := by
          rw [scan_emit, if_neg hc0, if_neg hpack]
          rfl
        have hexb : ∃ f ∈ sd, f.typ = "bool" ∧ f.offset / 8 = b := by
          by_contra hno
          push_neg at hno
          exact hpack (bools_in_byte_isEmpty.mpr
            (fun f hf ht => hno f hf ht))
        obtain ⟨f0, hf0, hf0b, hf0b8⟩ := hexb
        have hnostart : ∀ g ∈ sd, g.typ ≠ "bool" → g.offset / 8 ≠ b := by
          intro g hg hgnb hgb8
          have hgbl := hbl1 g hg
          exact hcover_bool g hg hgnb f0 hf0 hf0b (by omega) (by omega)
        have ih' := ih (b + 1) 0 (if 0 < tpl then 0 else tpi) 0
          (by omega) (by omega) (by omega) (fun _ => rfl)
          (by intro j h1 h2; omega)
          (by
            intro g hg hgnb hglt
            by_cases hgb : g.offset / 8 < b
            · have := hcov g hg hgnb hgb
              omega
            · exact absurd (by omega : g.offset / 8 = b)
                (hnostart g hg hgnb))
          (fun h => absurd rfl h)
        obtain ⟨ihp, ihm, ihc⟩ := ih'
        have hbyte := pack_spare_bits_cover b (bools_in_byte sd b)
          (fun e he => mem_bools_in_byte he)
          (bools_in_byte_offsets_nodup hids hpw b)
        have hfbsplit := future_bools_split sd b
        refine ⟨?_, ?_, ?_⟩
        · rw [hsc]
          rw [List.perm_iff_count]
          intro x
          have h1 := ihp.count_eq x
          simp only [List.count_append, Nat.mul_zero, Nat.sub_zero,
            List.range'_zero, List.count_nil] at h1
          rw [show b + 1 + 0 = b + 1 from by omega] at h1
          have hsplitc := ((all_bits_perm hfbsplit).trans
            (List.Perm.of_eq (all_bits_append _ _))).count_eq x
          simp only [List.count_append] at hsplitc
          have hbytec := hbyte.count_eq x
          simp only [List.count_append] at hbytec
          have hp2 : List.range' (8 * b) 8 ++
              List.range' (8 * (b + 1)) (8 * N - 8 * (b + 1)) =
              List.range' (8 * b) (8 * N - 8 * b) := by
            have h := List.range'_append (8 * b) 8
              (8 * N - 8 * (b + 1)) 1
            rw [show 8 * b + 1 * 8 = 8 * (b + 1) from by ring] at h
            rw [show (8 * N - 8 * (b + 1)) + 8 = 8 * N - 8 * b from by
              omega] at h
            exact h
          have hc2 := congrArg (List.count x) hp2
          simp only [List.count_append] at hc2
          have hflush2 : List.count x (all_bits (flush_pad tpi tpl)) =
              List.count x (List.range' (8 * (b - tpl)) (8 * tpl)) := by
            by_cases h0 : 0 < tpl
            · rw [flush_pad_bits, htpi h0]
            · rw [flush_pad_bits, show tpl = 0 from by omega]
              simp [List.range'_zero]
          simp only [all_bits_append, List.count_append]
          rw [show b + 0 = b from by omega]
          omega
        · intro g hg hgnb hble
          have hb1 : b + 1 ≤ g.offset / 8 := by
            rcases Nat.eq_or_lt_of_le hble with h | h
            · exact absurd h.symm (hnostart g hg hgnb)
            · omega
          rw [hsc]
          simp only [List.mem_append]
          right
          exact ihm g hg hgnb hb1
        · intro e he
          rw [hsc] at he
          simp only [List.mem_append] at he
          rcases he with (hfl | hsp) | hrec
          · right; right
            unfold flush_pad at hfl
            by_cases h0 : 0 < tpl
            · rw [if_pos h0] at hfl
              exact ⟨tpi, tpl, by omega, by simpa using hfl⟩
            · rw [if_neg h0] at hfl
              simp at hfl
          · right; left
            unfold spare_bits_for at hsp
            obtain ⟨i, hi, hie⟩ := List.mem_filterMap.mp hsp
            by_cases hc : ((bools_in_byte sd b).map
                (fun e => e.offset % 8)).contains i
            · rw [if_pos hc] at hie
              simp at hie
            · rw [if_neg hc] at hie
              obtain rfl : spare_bit_entry b i = e := by simpa using hie
              exact ⟨b, i, by simpa using hi, rfl⟩
          · exact ihc e hrec

/-! ## Claim theorems -/

/-- Claim C2 (amended): for every valid schema — declared fields with
unique ids, pairwise non-overlapping, within bounds, non-BOOL fields
byte-aligned, `total_bits` a multiple of 8, and additionally every declared
field of positive element count — the compiled layout consists of the
declared fields plus synthesized spare bits and spare bytes, covers every
bit of the assembly exactly once (so in particular its entry bit-lengths
sum to `total_bits`), and in every byte holding a declared BOOL all eight
bit positions are held by one-bit BOOL entries (declared BOOLs or spare
bits). -/
theorem c2_layout_partition (fields : List SchemaField) (size : Nat)
    (hv : schema_valid fields size) :
    (all_bits (compile_layout fields size)).Perm (List.range size) ∧
    ((compile_layout fields size).map entry_bits_len).sum = size ∧
    (∀ f ∈ fields, compiled_entry f ∈ compile_layout fields size) ∧
    (∀ e ∈ compile_layout fields size,
      (∃ f ∈ fields, e = compiled_entry f) ∨
      is_spare_bit e ∨ is_spare_byte e) ∧
    (∀ f ∈ fields, f.typ = "bool" → ∀ i, i < 8 →
      ∃ e ∈ compile_layout fields size, e.typ = "bool" ∧
        e.offset = 8 * (f.offset / 8) + i) := by
  obtain ⟨⟨hsz, hids, hpw, hbound, halign⟩, hlen⟩ := hv
  have h8N : 8 * (size / 8) = size := by omega
  have hsd : (sorted_dict fields).Perm fields := sorted_dict_perm fields hids
  have hids' : ((sorted_dict fields).map (fun f => f.id)).Nodup :=
    ((hsd.map (fun f => f.id)).nodup_iff).mpr hids
  have hpw' : (sorted_dict fields).Pairwise fields_disjoint :=
    ((hsd.pairwise_iff (fun h => fields_disjoint_symm h)).mpr hpw)
  have hbound' : ∀ f ∈ sorted_dict fields,
      f.offset + entry_bits_len f ≤ 8 * (size / 8) := by
    intro f hf
    rw [h8N]
    exact hbound f (hsd.subset hf)
  have halign' : ∀ f ∈ sorted_dict fields, f.typ ≠ "bool" →
      f.offset % 8 = 0 := fun f hf => halign f (hsd.subset hf)
  have hlen' : ∀ f ∈ sorted_dict fields, 1 ≤ f.length :=
    fun f hf => hlen f (hsd.subset hf)
  have spec := scan_emit_spec (sorted_dict fields) (size / 8) hids' hpw'
    hbound' halign' hlen' (size / 8) 0 0 0 0 (by omega) (by omega)
    (by omega) (fun _ => rfl) (by intro j h1 h2; omega)
    (by intro f hf hfnb h; omega) (fun h => absurd rfl h)
  obtain ⟨hperm, hmem, hchar⟩ := spec
  have hcpd : create_packet_dict fields size =
      pre_bools (sorted_dict fields) ++
        scan_emit (sorted_dict fields) 0 (size / 8) ((0 : Nat) : Int)
          0 0 := rfl
  have hsort : (compile_layout fields size).Perm
      (create_packet_dict fields size) := stableSort_perm _ _
  have h1 : (all_bits (compile_layout fields size)).Perm
      (List.range size) := by
    refine (all_bits_perm hsort).trans ?_
    rw [hcpd, all_bits_append]
    refine List.perm_append_comm.trans ?_
    rw [future_bools_zero] at hperm
    refine hperm.trans (List.Perm.of_eq ?_)
    rw [List.range_eq_range']
    simp only [Nat.sub_zero, Nat.mul_zero, Nat.zero_add, Nat.add_zero,
      List.range'_zero, List.nil_append]
    rw [h8N]
  have h2 : ((compile_layout fields size).map entry_bits_len).sum =
      size := by
    have hlenb : (all_bits (compile_layout fields size)).length = size :=
      h1.length_eq.trans (List.length_range size)
    have hsum : (all_bits (compile_layout fields size)).length =
        ((compile_layout fields size).map entry_bits_len).sum := by
      rw [all_bits, List.length_flatMap]
      congr 1
      refine List.map_congr_left ?_
      intro e _
      simp [Function.comp, bits_of, List.length_range']
    rw [← hsum]
    exact hlenb
  have h3 : ∀ f ∈ fields, compiled_entry f ∈ compile_layout fields size := by
    intro f hf
    have hf' : f ∈ sorted_dict fields := hsd.mem_iff.mpr hf
    rw [hsort.mem_iff, hcpd]
    by_cases hfb : f.typ = "bool"
    · rw [List.mem_append]
      left
      rw [show compiled_entry f = mk_bool_entry f from by
        simp [compiled_entry, hfb]]
      exact mem_pre_bools.mpr ⟨f, hf', hfb, rfl⟩
    · rw [List.mem_append]
      right
      rw [show compiled_entry f = mk_field_entry (f.offset / 8) f from by
        simp [compiled_entry, hfb]]
      exact hmem f hf' hfb (by omega)
  have h4 : ∀ e ∈ compile_layout fields size,
      (∃ f ∈ fields, e = compiled_entry f) ∨
      is_spare_bit e ∨ is_spare_byte e := by
    intro e he
    rw [hsort.mem_iff, hcpd, List.mem_append] at he
    rcases he with hp | hs
    · obtain ⟨f, hf, hfb, rfl⟩ := mem_pre_bools.mp hp
      left
      exact ⟨f, hsd.subset hf, by simp [compiled_entry, hfb]⟩
    · rcases hchar e hs with ⟨f, hf, hfnb, rfl⟩ | hsp | hsb
      · left
        exact ⟨f, hsd.subset hf, by simp [compiled_entry, hfnb]⟩
      · right; left; exact hsp
      · right; right; exact hsb
  refine ⟨h1, h2, h3, h4, ?_⟩
  intro f hf hfb i hi
  have hfbd := hbound f hf
  rw [entry_bits_len_of_bool hfb] at hfbd
  have hxlt : 8 * (f.offset / 8) + i < size := by omega
  have hx : (8 * (f.offset / 8) + i) ∈
      all_bits (compile_layout fields size) :=
    (h1.mem_iff).mpr (List.mem_range.mpr hxlt)
  obtain ⟨e, heL, hxe⟩ := List.mem_flatMap.mp hx
  by_cases htyp : e.typ = "bool"
  · refine ⟨e, heL, htyp, ?_⟩
    rw [bits_of_bool htyp] at hxe
    have heq : 8 * (f.offset / 8) + i = e.offset := by simpa using hxe
    exact heq.symm
  · exfalso
    -- a non-BOOL entry is byte-aligned with a whole-byte extent …
    have hshape : ∃ a m, 1 ≤ m ∧ e.offset = 8 * a ∧
        entry_bits_len e = 8 * m := by
      rcases h4 e heL with ⟨g, hg, rfl⟩ | hsp | hsb
      · have hgnb : g.typ ≠ "bool" := by
          intro hgb
          exact htyp (by simp [compiled_entry, hgb, mk_bool_entry])

        refine ⟨g.offset / 8, g.length * cip_data_type_size g.typ, ?_, ?_, ?_⟩
        · have h1' := hlen g hg
          have h2' := cip_data_type_size_pos g.typ
          calc 1 = 1 * 1 := rfl
            _ ≤ g.length * cip_data_type_size g.typ := Nat.mul_le_mul h1' h2'
        · simp [compiled_entry, hgnb, mk_field_entry]
        · simp [compiled_entry, hgnb, mk_field_entry,
            entry_bits_len, hgnb]
      · obtain ⟨b', i', hi', rfl⟩ := hsp
        exact absurd rfl htyp
      · obtain ⟨tpi, tpl, htpl, rfl⟩ := hsb
        refine ⟨tpi, tpl, htpl, rfl, ?_⟩
        simp [spare_byte_entry, entry_bits_len, cip_data_type_size]
    obtain ⟨a, m, hm1, hoe, hee⟩ := hshape
    rw [bits_of, List.mem_range'_1, hoe, hee] at hxe
    -- … so it would cover the BOOL's own bit as well
    have hfo_in_e : f.offset ∈ bits_of e := by
      rw [bits_of, List.mem_range'_1, hoe, hee]
      omega
    have hcf : compiled_entry f ∈ compile_layout fields size := h3 f hf
    have hfo_in_cf : f.offset ∈ bits_of (compiled_entry f) := by
      rw [show compiled_entry f = mk_bool_entry f from by
        simp [compiled_entry, hfb]]
      rw [bits_of_bool (by rfl)]
      simp [mk_bool_entry]
    have hne : e ≠ compiled_entry f := by
      intro h
      rw [h] at htyp
      exact htyp (by simp [compiled_entry, hfb, mk_bool_entry])
    have hnd_bits : (all_bits (compile_layout fields size)).Nodup :=
      (h1.nodup_iff).mpr (List.nodup_range size)
    exact all_bits_nodup_disjoint hnd_bits heL hcf hne hfo_in_e hfo_in_cf

/-- Claim C2 counterexample: the schema holding one zero-length USINT field
in an 8-bit assembly satisfies every validity condition stated by the claim
(unique ids, non-overlapping, within bounds, byte-aligned, size a multiple
of 8), yet the compiled layout's bit-lengths sum to 0, not 8, and its bits
do not cover the assembly. -/
theorem c2_counterexample :
    schema_valid_base [⟨"z", 0, "usint", 0⟩] 8 ∧
    ((compile_layout [⟨"z", 0, "usint", 0⟩] 8).map entry_bits_len).sum
      = 0 ∧
    ¬ (all_bits (compile_layout [⟨"z", 0, "usint", 0⟩] 8)).Perm
      (List.range 8) := by
  refine ⟨?_, ?_, ?_⟩ <;> decide

/-- Witness for C2: the 3-byte BOOL + USINT schema is valid and its
compiled layout partitions all 24 bits. -/
theorem c2_witness :
    (all_bits (compile_layout
        [⟨"flag", 0, "bool", 1⟩, ⟨"counter", 8, "usint", 1⟩] 24)).Perm
      (List.range 24) ∧
    ((compile_layout
        [⟨"flag", 0, "bool", 1⟩, ⟨"counter", 8, "usint", 1⟩] 24).map
      entry_bits_len).sum = 24 := by
  have h := c2_layout_partition
    [⟨"flag", 0, "bool", 1⟩, ⟨"counter", 8, "usint", 1⟩] 24 (by decide)
  exact ⟨h.1, h.2.1⟩

/-- Claim C5: the connection parameters are derived from the two assembly
sizes as `0x4800 | (total_bits/8 + 6)` and `0x2800 | (total_bits/8 + 6)`;
for 128-bit assemblies this gives `0x4816` and `0x2816`. -/
theorem c5_connection_params :
    (∀ a b : Nat, calculate_connection_params (some a) (some b) =
      (some (0x4800 ||| (a / 8 + 6)), some (0x2800 ||| (b / 8 + 6)))) ∧
    calculate_connection_params (some 128) (some 128) =
      (some 0x4816, some 0x2816) := by
  refine ⟨fun a b => rfl, ?_⟩
  decide

/-- Claim C6: compiling the 3-byte assembly holding one BOOL at bit 0 and
one USINT at byte 1 yields, in bit-offset order: the BOOL, seven spare bits
`spare_bit_0_1 .. spare_bit_0_7`, the USINT at byte 1, and a one-byte
`spare_byte_2` at byte 2. -/
theorem c6_example_layout :
    compile_layout [⟨"flag", 0, "bool", 1⟩, ⟨"counter", 8, "usint", 1⟩] 24 =
      [⟨"flag", 0, "bool", 1⟩,
       spare_bit_entry 0 1, spare_bit_entry 0 2, spare_bit_entry 0 3,
       spare_bit_entry 0 4, spare_bit_entry 0 5, spare_bit_entry 0 6,
       spare_bit_entry 0 7,
       ⟨"counter", 8, "usint", 1⟩,
       spare_byte_entry 2 1] ∧
    (spare_bit_entry 0 1).id = "spare_bit_0_1" ∧
    (spare_bit_entry 0 7).id = "spare_bit_0_7" ∧
    spare_byte_entry 2 1 =
      { id := "spare_byte_2", offset := 16, typ := "string", length := 1 } := by
  decide

/-- Claim C3 (amended): the layout compiler performs no size validation at
all — it never fails, a `total_bits` that is not a multiple of 8 is
silently truncated to whole bytes (a 12-bit assembly yields a layout
covering bits 0..7 only), and a declared field overrunning `total_bits` is
compiled without error (a UDINT in an 8-bit assembly yields a layout
covering 32 bits). -/
theorem c3_no_size_validation :
    (∀ (fields : List SchemaField) (size : Nat),
      create_packet_class fields size = .ok (compile_layout fields size)) ∧
    all_bits (compile_layout [⟨"a", 0, "usint", 1⟩] 12) = List.range 8 ∧
    all_bits (compile_layout [⟨"u", 0, "udint", 1⟩] 8) = List.range 32 := by
  refine ⟨fun _ _ => rfl, ?_, ?_⟩ <;> decide

/-- Claim C3 counterexample: a schema with misaligned `total_bits = 12`
does not fail with `MisalignedSize`, and a schema whose UDINT field
overruns its 8-bit assembly does not fail with `FieldOverrun`. -/
theorem c3_counterexample :
    (12 % 8 ≠ 0 ∧
      create_packet_class [⟨"a", 0, "usint", 1⟩] 12 ≠
        .error ConfigErr.misalignedSize) ∧
    ((0 : Nat) + entry_bits_len ⟨"u", 0, "udint", 1⟩ > 8 ∧
      create_packet_class [⟨"u", 0, "udint", 1⟩] 8 ≠
        .error ConfigErr.fieldOverrun) := by
  refine ⟨⟨by decide, fun h => ?_⟩, ⟨by decide, fun h => ?_⟩⟩ <;>
    simp [create_packet_class] at h

/-- Claim C8: the O→T sequence counter `CIP_AppCounter` stays 16-bit; a
cycle that sends uses the current counter value, and the counter then
advances to 0 after 65535 and to the successor otherwise. -/
theorem c8_sequence_counter_wraps (cls : PacketClass) (st : IOState)
    (recv : Option (List Nat)) (hseq : st.seq ≤ 65535) :
    (manage_io_cycle cls st recv).1.seq ≤ 65535 ∧
    (∀ s, (manage_io_cycle cls st recv).2 = some s →
      s = st.seq ∧
      (manage_io_cycle cls st recv).1.seq = if s = 65535 then 0 else s + 1) := by
  cases recv with
  | none => simpa [manage_io_cycle] using hseq
  | some payload =>
    simp only [manage_io_cycle]
    constructor
    · by_cases h : st.seq < 65535 <;> simp [h] <;> omega
    · intro s hs
      obtain rfl : s = st.seq := (by simpa using hs : st.seq = s).symm
      refine ⟨rfl, ?_⟩
      by_cases h : st.seq = 65535
      · simp [h]
      · have hlt : st.seq < 65535 := by omega
        simp [hlt, h]

/-- Claim C9: the heartbeat counter `MPU_CTCMSAlive` stays 8-bit; each
successful cycle advances it (wrapping 255 to 0) and writes the advanced
value into the OT packet's heartbeat field when that field is a declared
`ByteField`. -/
theorem c9_heartbeat_wraps (cls : PacketClass) (st : IOState)
    (recv : Option (List Nat)) (hhb : st.hb ≤ 255) :
    (manage_io_cycle cls st recv).1.hb ≤ 255 ∧
    (init_io_state st.otPacket).hb = 0 ∧
    ((manage_io_cycle cls st recv).2 ≠ none →
      (manage_io_cycle cls st recv).1.hb =
        (if st.hb = 255 then 0 else st.hb + 1) ∧
      (getClassField cls "MPU_CTCMSAlive" = some .byteField →
        getFieldVal cls (manage_io_cycle cls st recv).1.otPacket
            "MPU_CTCMSAlive" =
          some (.int ((manage_io_cycle cls st recv).1.hb : Int)))) := by
  cases recv with
  | none => simpa [manage_io_cycle, init_io_state] using hhb
  | some payload =>
    refine ⟨?_, rfl, ?_⟩
    · simp only [manage_io_cycle]
      by_cases h : st.hb ≥ 255 <;> simp [h] <;> omega
    · intro _
      have hwrap : (if st.hb ≥ 255 then 0 else st.hb + 1) =
          (if st.hb = 255 then 0 else st.hb + 1) := by
        by_cases h : st.hb = 255
        · simp [h]
        · have : ¬ st.hb ≥ 255 := by omega
          simp [h, this]
      constructor
      · simpa [manage_io_cycle] using hwrap
      · intro hcls
        simp [manage_io_cycle, set_heartbeat, hcls, getFieldVal_setFieldVal]

/-- Claim C7: with auto-reconnect disabled, a raised connection failure
(e.g. a rejected Forward Open, which `run_once` turns into an exception)
ends the communication loop after exactly one attempt; with auto-reconnect
enabled and no stop request, the same failure is retried after the fixed
2-second backoff, one further attempt per observation horizon, until a stop
request is observed. -/
theorem c7_reconnect_policy :
    (∀ b : Bool, run_once_outcome b false = .exn) ∧
    (∀ (o : IterObs) (rest : List IterObs),
      o.outcome = .exn → o.entry_stop = false →
      comm_thread_attempts false (o :: rest) = 1) ∧
    (∀ o : IterObs, o.outcome = .exn → o.exn_stop = false →
      loop_iter_decision true o = some 2) ∧
    (∀ (o : IterObs) (rest : List IterObs),
      o.outcome = .exn → o.exn_stop = false →
      comm_thread_attempts true (o :: rest) =
        1 + comm_thread_attempts true rest) ∧
    (∀ obs : List IterObs,
      (∀ o ∈ obs, o.exn_stop = false ∧ o.post_stop = false ∧
        o.sleep_stop = false) →
      comm_thread_attempts true obs = obs.length) ∧
    (∀ (o : IterObs) (rest : List IterObs),
      o.outcome = .exn → o.exn_stop = true →
      comm_thread_attempts true (o :: rest) = 1) := by
  refine ⟨?_, ?_, ?_, ?_, ?_, ?_⟩
  · intro b; cases b <;> rfl
  · intro o rest ho hs
    simp [comm_thread_attempts, loop_iter_decision, ho, hs]
  · intro o ho hs
    simp [loop_iter_decision, ho, hs]
  · intro o rest ho hs
    simp [comm_thread_attempts, loop_iter_decision, ho, hs]
  · intro obs hobs
    induction obs with
    | nil => rfl
    | cons o rest ih =>
      obtain ⟨h1, h2, h3⟩ := hobs o (by simp)
      have hrest := ih (fun x hx => hobs x (by simp [hx]))
      cases ho : o.outcome <;>
        simp [comm_thread_attempts, loop_iter_decision, ho, h1, h2, h3,
          hrest] <;> omega
  · intro o rest ho hs
    simp [comm_thread_attempts, loop_iter_decision, ho, hs]

/-- Claim C10: a failing `set_value` call (whatever the raised
`FieldMutationError`) leaves the packet state — every field of the packet —
unchanged: each setter validates before it mutates. -/
theorem c10_set_error_leaves_packet_unchanged (cls : PacketClass)
    (st : PacketState) (name : String) (raw : RawValue)
    (e : FieldMutationErr) (h : (set_value cls st name raw).2 = some e) :
    (set_value cls st name raw).1 = st := by
  unfold set_value at h ⊢
  revert h
  cases getClassField cls name with
  | none => intro _; rfl
  | some kind =>
    dsimp only
    cases strategy_setter kind with
    | none => intro _; rfl
    | some sk =>
      cases sk with
      | float => exact set_float_err st name raw e
      | bit => exact set_bit_err st name raw e
      | byte => exact set_byte_err st name raw e
      | short => exact set_short_err st name raw e

/-- Claim C1: for every generated packet field and raw input, when
`set_value` succeeds, `format_value` reproduces the input — exactly for
integer and string content, and at the single-precision bit pattern for
floats. -/
theorem c1_set_then_format_round_trips (cls : PacketClass)
    (st : PacketState) (name : String) (raw : RawValue) (st' : PacketState)
    (hwf : RawWF raw) (hset : set_value cls st name raw = (st', none)) :
    ∃ fv, format_value cls st' name = some fv ∧ matchesInput raw fv := by
  unfold set_value at hset
  revert hset
  cases hcls : getClassField cls name with
  | none => intro hset; simp at hset
  | some kind =>
    dsimp only
    cases kind with
    | strFixedField len => intro hset; simp [strategy_setter] at hset
    | leIntField => intro hset; simp [strategy_setter] at hset
    | signedByteField => intro hset; simp [strategy_setter] at hset
    | floatField =>
      dsimp only [strategy_setter]
      unfold set_float
      cases hfp : float_pattern raw with
      | none => intro hset; simp at hset
      | some p =>
        intro hset
        obtain ⟨rfl, -⟩ : setFieldVal st name
            (.flt (float_to_big_endian p)) = st' ∧ True := by
          simpa using congrArg Prod.fst hset
        have hp32 : p < 256 ^ 4 := by
          cases raw with
          | num i q => simp [float_pattern] at hfp; subst hfp; simpa using hwf
          | txt bs iv fp =>
            simp [float_pattern] at hfp
            have := hwf.1
            rw [hfp] at this
            simpa using this
          | bin bs => simp [float_pattern] at hfp
        refine ⟨.flt p, ?_, ?_⟩
        · unfold format_value
          rw [hcls]
          dsimp only
          rw [getFieldVal_setFieldVal]
          dsimp only
          rw [show float_to_big_endian (float_to_big_endian p) = p from
            reverse_bytes_involutive p 4 hp32]
        · cases raw with
          | num i q =>
            have : q = p := by simpa [float_pattern] using hfp
            subst this
            simp [matchesInput]
          | txt bs iv fp =>
            have : fp = some p := by simpa [float_pattern] using hfp
            subst this
            simp [matchesInput]
          | bin bs => simp [float_pattern] at hfp
    | byteField =>
      dsimp only [strategy_setter]
      unfold set_byte
      cases hpi : parse_int raw with
      | none => intro hset; simp at hset
      | some v =>
        dsimp only
        by_cases hr : 0 ≤ v ∧ v ≤ 0xFF
        · rw [if_pos hr]
          intro hset
          obtain ⟨rfl, -⟩ : setFieldVal st name (.int v) = st' ∧ True := by
            simpa using congrArg Prod.fst hset
          have hto : ((v.toNat : Int)) = v := Int.toNat_of_nonneg hr.1
          refine ⟨.int v, ?_, ?_⟩
          · unfold format_value
            rw [hcls]
            dsimp only
            rw [getFieldVal_setFieldVal]
            dsimp only
            rw [reverse_bytes_one]
            rw [Nat.mod_eq_of_lt (by omega)]
            rw [hto]
          · cases raw with
            | num i q =>
              have : i = v := by simpa [parse_int] using hpi
              subst this; simp [matchesInput]
            | txt bs iv fp =>
              have : iv = some v := by simpa [parse_int] using hpi
              subst this; simp [matchesInput]
            | bin bs => simp [parse_int] at hpi
        · rw [if_neg hr]; intro hset; simp at hset
    | shortField =>
      dsimp only [strategy_setter]
      unfold set_short
      cases hpi : parse_int raw with
      | none => intro hset; simp at hset
      | some v =>
        dsimp only
        by_cases hr : 0 ≤ v ∧ v ≤ 0xFFFF
        · rw [if_pos hr]
          intro hset
          obtain ⟨rfl, -⟩ : setFieldVal st name
              (.int (reverse_bytes v.toNat 2)) = st' ∧ True := by
            simpa using congrArg Prod.fst hset
          have hto : ((v.toNat : Int)) = v := Int.toNat_of_nonneg hr.1
          refine ⟨.int v, ?_, ?_⟩
          · unfold format_value
            rw [hcls]
            dsimp only
            rw [getFieldVal_setFieldVal]
            dsimp only
            rw [Int.toNat_natCast]
            rw [show reverse_bytes (reverse_bytes v.toNat 2) 2 = v.toNat from
              reverse_bytes_involutive v.toNat 2 (by omega)]
            rw [hto]
          · cases raw with
            | num i q =>
              have : i = v := by simpa [parse_int] using hpi
              subst this; simp [matchesInput]
            | txt bs iv fp =>
              have : iv = some v := by simpa [parse_int] using hpi
              subst this; simp [matchesInput]
            | bin bs => simp [parse_int] at hpi
        · rw [if_neg hr]; intro hset; simp at hset
    | bitField =>
      dsimp only [strategy_setter]
      unfold set_bit
      cases raw with
      | num i q =>
        dsimp only
        by_cases hi : i = 0 ∨ i = 1
        · rw [if_pos hi]
          intro hset
          obtain ⟨rfl, -⟩ : setFieldVal st name (.int i) = st' ∧ True := by
            simpa using congrArg Prod.fst hset
          refine ⟨.int i, ?_, by simp [matchesInput]⟩
          unfold format_value
          rw [hcls]
          dsimp only
          rw [getFieldVal_setFieldVal]
          dsimp only
          rw [reverse_bytes_one]
          rcases hi with rfl | rfl <;> rfl
        · rw [if_neg hi]; intro hset; simp at hset
      | txt bs iv fp =>
        dsimp only
        by_cases h0 : bs = [0x30]
        · rw [if_pos h0]
          intro hset
          obtain ⟨rfl, -⟩ : setFieldVal st name (.int 0) = st' ∧ True := by
            simpa using congrArg Prod.fst hset
          have hiv : iv = some 0 := hwf.2.1 h0
          refine ⟨.int 0, ?_, by subst h0 hiv; simp [matchesInput]⟩
          unfold format_value
          rw [hcls]
          dsimp only
          rw [getFieldVal_setFieldVal]
          dsimp only
          rw [reverse_bytes_one]
          rfl
        · rw [if_neg h0]
          by_cases h1 : bs = [0x31]
          · rw [if_pos h1]
            intro hset
            obtain ⟨rfl, -⟩ : setFieldVal st name (.int 1) = st' ∧ True := by
              simpa using congrArg Prod.fst hset
            have hiv : iv = some 1 := hwf.2.2 h1
            refine ⟨.int 1, ?_, by subst h1 hiv; simp [matchesInput]⟩
            unfold format_value
            rw [hcls]
            dsimp only
            rw [getFieldVal_setFieldVal]
            dsimp only
            rw [reverse_bytes_one]
            rfl
          · rw [if_neg h1]; intro hset; simp at hset
      | bin bs => intro hset; simp at hset

/-- Claim C4 (amended): large-integer typed schema entries do not support
`set_value`.  DINT and LINT entries generate no packet field at all (the
`field_desc` branches of `create_packet_class` skip them), so setting them
fails with "field not found"; UDINT entries are declared as `LEIntField`
(little-endian, matching the declared no-byte-swap wire layout), but the
strategy table offers no setter for them, so `set_value` fails with
"unsupported operation" and leaves the packet unchanged. -/
theorem c4_large_int_set_always_fails :
    (∀ e : SchemaField, e.typ = "dint" ∨ e.typ = "lint" →
      field_desc_entry e = none) ∧
    (∀ e : SchemaField, e.typ = "udint" →
      field_desc_entry e = some (e.id, .leIntField)) ∧
    (∀ (cls : PacketClass) (st : PacketState) (name : String)
      (raw : RawValue), getClassField cls name = some .leIntField →
      set_value cls st name raw = (st, some .unsupportedOperation)) ∧
    (∀ (cls : PacketClass) (st : PacketState) (name : String)
      (raw : RawValue), getClassField cls name = none →
      set_value cls st name raw = (st, some .notFound)) := by
  refine ⟨?_, ?_, ?_, ?_⟩
  · rintro e (h | h) <;> simp [field_desc_entry, h]
  · intro e h; simp [field_desc_entry, h]
  · intro cls st name raw h
    unfold set_value
    rw [h]
    rfl
  · intro cls st name raw h
    unfold set_value
    rw [h]

/-- Witness for C1: setting a UINT (`ShortField`) field to `0x1234`
succeeds, and formatting returns `0x1234`. -/
theorem c1_witness :
    ∃ fv, format_value [("s", .shortField)]
        (set_value [("s", .shortField)] [] "s" (.num 0x1234 0)).1 "s" =
          some fv ∧
      matchesInput (.num 0x1234 0) fv :=
  c1_set_then_format_round_trips [("s", .shortField)] [] "s"
    (.num 0x1234 0) (set_value [("s", .shortField)] [] "s" (.num 0x1234 0)).1
    (by decide) (by decide)

/-- Witness for C10: an out-of-range byte write leaves the packet state
unchanged. -/
theorem c10_witness :
    (set_value [("b", .byteField)] [] "b" (.num 999 0)).1 = [] :=
  c10_set_error_leaves_packet_unchanged [("b", .byteField)] [] "b"
    (.num 999 0) .outOfRange (by decide)

/-- Witness for C8: a cycle entered with sequence counter 65535 sends
65535 and leaves the counter at 0. -/
theorem c8_witness :
    (manage_io_cycle [] ⟨65535, 0, [], false⟩ (some [])).1.seq = 0 := by
  have h := c8_sequence_counter_wraps [] ⟨65535, 0, [], false⟩ (some [])
    (by decide)
  simpa using (h.2 65535 (by decide)).2

/-- Witness for C9: a successful cycle entered with heartbeat 255 writes 0
into the packet's `MPU_CTCMSAlive` byte field. -/
theorem c9_witness :
    (manage_io_cycle [("MPU_CTCMSAlive", .byteField)]
        ⟨65500, 255, [], false⟩ (some [])).1.hb = 0 ∧
    getFieldVal [("MPU_CTCMSAlive", .byteField)]
        (manage_io_cycle [("MPU_CTCMSAlive", .byteField)]
          ⟨65500, 255, [], false⟩ (some [])).1.otPacket "MPU_CTCMSAlive" =
      some (.int 0) := by
  have h := c9_heartbeat_wraps [("MPU_CTCMSAlive", .byteField)]
    ⟨65500, 255, [], false⟩ (some []) (by decide)
  obtain ⟨h1, h2⟩ := h.2.2 (by decide)
  have h1' : (manage_io_cycle [("MPU_CTCMSAlive", .byteField)]
      ⟨65500, 255, [], false⟩ (some [])).1.hb = 0 := by simpa using h1
  refine ⟨h1', ?_⟩
  have := h2 (by decide)
  rw [h1'] at this
  simpa using this

/-- Witness for C7: with auto-reconnect disabled a failed attempt is the
only attempt; with auto-reconnect enabled and no stop request the failure
is retried after the 2-second backoff; a stop request ends the loop. -/
theorem c7_witness :
    comm_thread_attempts false [⟨false, .exn, false, false, false⟩] = 1 ∧
    loop_iter_decision true ⟨false, .exn, false, false, false⟩ = some 2 ∧
    comm_thread_attempts true [⟨false, .exn, false, false, false⟩,
        ⟨false, .exn, false, false, false⟩] =
      1 + comm_thread_attempts true [⟨false, .exn, false, false, false⟩] ∧
    comm_thread_attempts true
        [⟨false, .exn, false, false, false⟩,
         ⟨false, .exn, false, false, false⟩] = 2 ∧
    comm_thread_attempts true [⟨false, .exn, true, false, false⟩] = 1 :=
  ⟨c7_reconnect_policy.2.1 _ [] rfl rfl,
   c7_reconnect_policy.2.2.1 _ rfl rfl,
   c7_reconnect_policy.2.2.2.1 _ _ rfl rfl,
   c7_reconnect_policy.2.2.2.2.1 _ (by decide),
   c7_reconnect_policy.2.2.2.2.2 _ [] rfl rfl⟩

/-- Witness for C4: a `LEIntField`-typed (UDINT) field rejects a set with
`unsupportedOperation`; a missing (DINT) field rejects it with
`notFound`. -/
theorem c4_witness :
    set_value [("u", .leIntField)] [] "u" (.num 5 0) =
      ([], some .unsupportedOperation) ∧
    set_value [] [] "d" (.num 5 0) = ([], some .notFound) :=
  ⟨c4_large_int_set_always_fails.2.2.1 [("u", .leIntField)] [] "u"
      (.num 5 0) (by decide),
   c4_large_int_set_always_fails.2.2.2 [] [] "d" (.num 5 0) rfl⟩

/-- Claim C4 counterexample: in a 32-bit assembly holding a single DINT
field, setting it to the decimal string `"5"` fails with `notFound` (no
packet field was generated for it); for a UDINT field the same set fails
with `unsupportedOperation`.  In both cases nothing is stored. -/
theorem c4_counterexample :
    packet_class_of (compile_layout [⟨"d", 0, "dint", 1⟩] 32) = [] ∧
    set_value (packet_class_of (compile_layout [⟨"d", 0, "dint", 1⟩] 32))
      [] "d" (.txt [0x35] (some 5) none) = ([], some .notFound) ∧
    packet_class_of (compile_layout [⟨"u", 0, "udint", 1⟩] 32) =
      [("u", .leIntField)] ∧
    set_value (packet_class_of (compile_layout [⟨"u", 0, "udint", 1⟩] 32))
      [] "u" (.txt [0x35] (some 5) none) =
        ([], some .unsupportedOperation) := by
  decide

end XCipMaster
